import Mathlib

/-! # SingleLinkedList: a shallow embedding of `single-linked-list.h`

Pointers (`Node*`) are natural numbers, `0` is `nullptr`.  All nodes, the
sentinel `head_` embedded in every list object included, live in one memory, so
that a cursor can reference a sentinel or a real node alike, as in the source.
An operation that dereferences a null or dangling pointer has no defined result
and returns `none`.  Allocation never fails: the memory is unbounded, and so is
the `size_` counter.

Loops that follow `next_node` links run on a fuel of `m.length + 1` steps, which
is more than the number of nodes of any chain without a cycle in the memory `m`
(`Chain.length_le`).

The copy constructor (lines 121-130 of the source) has no embedding: its loop
header `for (auto it = other.end - 1; it != other.before_begin; it--)` names the
member functions `end` and `before_begin` without calling them and steps a
forward-only cursor backwards, so no instantiation of it is well-formed.  The
copy assignment operator constructs its temporary with it.
-/

namespace SLL

/-- The source's `struct Node`: `Type value; Node* next_node`. -/
structure Node (α : Type) where
  value : α
  next_node : Nat
deriving DecidableEq, Repr

/-- Memory cells: the node at address `a + 1` is cell `a`; a deleted node is `none`.
Address `0` is `nullptr` and holds nothing. -/
abbrev Memory (α : Type) := List (Option (Node α))

variable {α : Type}

/-- Reading through a pointer (`p->...`): `none` for a null or dangling pointer. -/
def load (m : Memory α) : Nat → Option (Node α)
  | 0 => none
  | a + 1 => m.getD a none

/-- Writing through a pointer that was read before. -/
def store (m : Memory α) (p : Nat) (n : Node α) : Memory α :=
  match p with
  | 0 => m
  | a + 1 => m.set a (some n)

/-- The source's `new Node(...)`: a fresh address, never handed out before. -/
def alloc (m : Memory α) (n : Node α) : Nat × Memory α :=
  (m.length + 1, m ++ [some n])

/-- The source's `delete d`. -/
def free (m : Memory α) (p : Nat) : Memory α :=
  match p with
  | 0 => m
  | a + 1 => m.set a none

/-- The source's `BasicIterator`: the one field `Node* node_`. -/
structure BasicIterator where
  node_ : Nat
deriving DecidableEq, Repr

/-- The list object: `head_` is the address of the embedded sentinel node
(`&head_`, which also identifies the object), `size_` the `size_t` counter.
Every node the counter counts occupies an address of its own, so the counter
cannot wrap before the address space is exhausted; it is a natural number. -/
structure SingleLinkedList where
  head_ : Nat
  size_ : Nat
deriving DecidableEq, Repr

namespace BasicIterator

/-- Iterator `operator==`: `node_ == rhs.node_`. -/
def eq (a b : BasicIterator) : Bool := a.node_ == b.node_

/-- Iterator `operator!=`: `!(*this == rhs)`. -/
def ne (a b : BasicIterator) : Bool := !(a.eq b)

/-- Pre-increment: `node_ = node_ == nullptr ? nullptr : node_->next_node`. -/
def incr (m : Memory α) (it : BasicIterator) : Option BasicIterator :=
  if it.node_ = 0 then some ⟨0⟩
  else (load m it.node_).map fun n => ⟨n.next_node⟩

/-- Post-increment: the new cursor and the returned old one. -/
def postIncr (m : Memory α) (it : BasicIterator) : Option (BasicIterator × BasicIterator) :=
  (it.incr m).map fun it1 => (it1, it)

/-- Dereference `operator*`: `node_->value`. -/
def deref (m : Memory α) (it : BasicIterator) : Option α :=
  (load m it.node_).map fun n => n.value

end BasicIterator

namespace SingleLinkedList

/-- `begin()`: `Iterator(head_.next_node)`. -/
def begin (m : Memory α) (L : SingleLinkedList) : Option BasicIterator :=
  (load m L.head_).map fun h => ⟨h.next_node⟩

/-- `end()`: the default-constructed cursor. -/
def «end» : BasicIterator := ⟨0⟩

/-- `before_begin()`: `Iterator(&head_)`. -/
def before_begin (L : SingleLinkedList) : BasicIterator := ⟨L.head_⟩

/-- `GetSize()`. -/
def GetSize (L : SingleLinkedList) : Nat := L.size_

/-- `IsEmpty()`: `size_ == 0`. -/
def IsEmpty (L : SingleLinkedList) : Bool := L.size_ == 0

/-- The default constructor: the object with its sentinel `head_` (a
default-constructed `Node`, `next_node = nullptr`) and `size_ = 0`. -/
def create [Inhabited α] (m : Memory α) : Memory α × SingleLinkedList :=
  let r := alloc m ⟨default, 0⟩
  (r.2, ⟨r.1, 0⟩)

/-- `PushFront`: `head_.next_node = new Node(value, head_.next_node); size_++`. -/
def PushFront (m : Memory α) (L : SingleLinkedList) (value : α) :
    Option (Memory α × SingleLinkedList) :=
  match load m L.head_ with
  | none => none
  | some h =>
    let r := alloc m ⟨value, h.next_node⟩
    some (store r.2 L.head_ { h with next_node := r.1 }, { L with size_ := L.size_ + 1 })

/-- `PopFront`: `d = head_.next_node; head_.next_node = head_.next_node->next_node;
size_--; delete d`.  On the empty list the second statement reads through
`nullptr`. -/
def PopFront (m : Memory α) (L : SingleLinkedList) : Option (Memory α × SingleLinkedList) :=
  match load m L.head_ with
  | none => none
  | some h =>
    let d := h.next_node
    match load m d with
    | none => none
    | some dn =>
      let m1 := store m L.head_ { h with next_node := dn.next_node }
      some (free m1 d, { L with size_ := L.size_ - 1 })

/-- `InsertAfter(it, value)`. -/
def InsertAfter (m : Memory α) (L : SingleLinkedList) (it : BasicIterator) (value : α) :
    Option (Memory α × SingleLinkedList × BasicIterator) :=
  match load m it.node_ with
  | none => none
  | some n =>
    let r := alloc m ⟨value, n.next_node⟩
    some (store r.2 it.node_ { n with next_node := r.1 },
          { L with size_ := L.size_ + 1 }, ⟨r.1⟩)

/-- `EraseAfter(it)`: as in the source, `size_` is not touched. -/
def EraseAfter (m : Memory α) (L : SingleLinkedList) (it : BasicIterator) :
    Option (Memory α × SingleLinkedList × BasicIterator) :=
  match load m it.node_ with
  | none => none
  | some n =>
    let d := n.next_node
    match load m d with
    | none => none
    | some dn =>
      let m1 := store m it.node_ { n with next_node := dn.next_node }
      let m2 := free m1 d
      match load m2 it.node_ with
      | none => none
      | some n2 => some (m2, L, ⟨n2.next_node⟩)

/-- The loop of `Clear`: `while (head_.next_node != nullptr) { ... delete d; }`. -/
def clearLoop (m : Memory α) (head : Nat) : Nat → Option (Memory α)
  | 0 => none
  | fuel + 1 =>
    match load m head with
    | none => none
    | some h =>
      if h.next_node = 0 then some m
      else
        let d := h.next_node
        match load m d with
        | none => none
        | some dn =>
          clearLoop (free (store m head { h with next_node := dn.next_node }) d) head fuel

/-- `Clear`: the loop, then `size_ = 0`.  A chain without a cycle has at most
`m.length` nodes, which bounds the loop. -/
def Clear (m : Memory α) (L : SingleLinkedList) : Option (Memory α × SingleLinkedList) :=
  (clearLoop m L.head_ (m.length + 1)).map fun m1 => (m1, { L with size_ := 0 })

/-- Member `swap`: `std::swap` of the two `head_.next_node` and of the two `size_`.
Returns the memory, `*this` and `other`. -/
def swap (m : Memory α) (L other : SingleLinkedList) :
    Option (Memory α × SingleLinkedList × SingleLinkedList) :=
  match load m L.head_, load m other.head_ with
  | some a, some b =>
    let m1 := store m L.head_ { a with next_node := b.next_node }
    match load m1 other.head_ with
    | none => none
    | some b1 =>
      let m2 := store m1 other.head_ { b1 with next_node := a.next_node }
      some (m2, { L with size_ := other.size_ }, { other with size_ := L.size_ })
  | _, _ => none

/-- The pushes of the initializer-list constructor, over the values in reverse:
`for (it = rbegin(values); it != rend(values); it++) PushFront(*it)`. -/
def pushAll (m : Memory α) (L : SingleLinkedList) :
    List α → Option (Memory α × SingleLinkedList)
  | [] => some (m, L)
  | v :: rest =>
    match PushFront m L v with
    | none => none
    | some r => pushAll r.1 r.2 rest

/-- `SingleLinkedList(std::initializer_list<Type> values)`: the object starts as
the default member initializers leave it, the values are pushed in reverse, and
`size_ = values.size()`. -/
def ofInitializerList [Inhabited α] (m : Memory α) (values : List α) :
    Option (Memory α × SingleLinkedList) :=
  let r := create m
  (pushAll r.1 r.2 values.reverse).map fun s => (s.1, { s.2 with size_ := values.length })

/-- A full iteration `for (it = first; it != end(); ++it) yield *it`. -/
def collect (m : Memory α) : Nat → BasicIterator → Option (List α)
  | 0, _ => none
  | fuel + 1, it =>
    if it.ne «end» then
      match it.deref m, it.incr m with
      | some v, some it1 => (collect m fuel it1).map fun vs => v :: vs
      | _, _ => none
    else some []

/-- The elements yielded by iterating from `begin()` to `end()`. -/
def toList (m : Memory α) (L : SingleLinkedList) : Option (List α) :=
  match begin m L with
  | none => none
  | some it => collect m (m.length + 1) it

end SingleLinkedList

open SingleLinkedList

/-- Non-member `swap(lhs, rhs)`: `lhs.swap(rhs)`. -/
def swap (m : Memory α) (lhs rhs : SingleLinkedList) :
    Option (Memory α × SingleLinkedList × SingleLinkedList) :=
  lhs.swap m rhs

/-- The three-iterator `std::equal(first1, last1, first2)` of the C++ standard
library: `for (; first1 != last1; ++first1, ++first2) if (!(*first1 == *first2))
return false; return true;`. -/
def std_equal [DecidableEq α] (m : Memory α) :
    Nat → BasicIterator → BasicIterator → BasicIterator → Option Bool
  | 0, _, _, _ => none
  | fuel + 1, first1, last1, first2 =>
    if first1.ne last1 then
      match first1.deref m, first2.deref m with
      | some a, some b =>
        if a = b then
          match first1.incr m, first2.incr m with
          | some n1, some n2 => std_equal m fuel n1 last1 n2
          | _, _ => none
        else some false
      | _, _ => none
    else some true

/-- `std::lexicographical_compare(first1, last1, first2, last2)` of the C++
standard library: `for (; first1 != last1 && first2 != last2; ++first1, ++first2)
{ if (*first1 < *first2) return true; if (*first2 < *first1) return false; }
return first1 == last1 && first2 != last2;`. -/
def std_lexicographical_compare [LT α] [DecidableRel (fun a b : α => a < b)] (m : Memory α) :
    Nat → BasicIterator → BasicIterator → BasicIterator → BasicIterator → Option Bool
  | 0, _, _, _, _ => none
  | fuel + 1, first1, last1, first2, last2 =>
    if first1.ne last1 && first2.ne last2 then
      match first1.deref m, first2.deref m with
      | some a, some b =>
        if a < b then some true
        else if b < a then some false
        else
          match first1.incr m, first2.incr m with
          | some n1, some n2 => std_lexicographical_compare m fuel n1 last1 n2 last2
          | _, _ => none
      | _, _ => none
    else some (first1.eq last1 && first2.ne last2)

/-- List `operator==`: `(&lhs == &rhs) || std::equal(lhs.begin(), lhs.end(), rhs.begin())`. -/
def operator_eq [DecidableEq α] (m : Memory α) (lhs rhs : SingleLinkedList) : Option Bool :=
  if lhs.head_ = rhs.head_ then some true
  else
    match lhs.begin m, rhs.begin m with
    | some b1, some b2 => std_equal m (m.length + 1) b1 «end» b2
    | _, _ => none

/-- List `operator!=`: `!(lhs == rhs)`. -/
def operator_ne [DecidableEq α] (m : Memory α) (lhs rhs : SingleLinkedList) : Option Bool :=
  (operator_eq m lhs rhs).map fun b => !b

/-- List `operator<`: `std::lexicographical_compare` over both ranges. -/
def operator_lt [LT α] [DecidableRel (fun a b : α => a < b)] (m : Memory α)
    (lhs rhs : SingleLinkedList) : Option Bool :=
  match lhs.begin m, rhs.begin m with
  | some b1, some b2 => std_lexicographical_compare m (m.length + 1) b1 «end» b2 «end»
  | _, _ => none

/-- List `operator<=`: `(lhs < rhs) || (lhs == rhs)`, the right operand evaluated
only when the left one is false. -/
def operator_le [LT α] [DecidableRel (fun a b : α => a < b)] [DecidableEq α] (m : Memory α)
    (lhs rhs : SingleLinkedList) : Option Bool :=
  match operator_lt m lhs rhs with
  | none => none
  | some true => some true
  | some false => operator_eq m lhs rhs

/-- List `operator>`: `!(lhs <= rhs)`. -/
def operator_gt [LT α] [DecidableRel (fun a b : α => a < b)] [DecidableEq α] (m : Memory α)
    (lhs rhs : SingleLinkedList) : Option Bool :=
  (operator_le m lhs rhs).map fun b => !b

/-- List `operator>=`: `!(lhs < rhs)`. -/
def operator_ge [LT α] [DecidableRel (fun a b : α => a < b)] (m : Memory α)
    (lhs rhs : SingleLinkedList) : Option Bool :=
  (operator_lt m lhs rhs).map fun b => !b


/-! ## Specification vocabulary -/

/-- The cursor after `k` pre-increments (`++it`, `k` times). -/
def BasicIterator.advance (m : Memory α) (it : BasicIterator) : Nat → Option BasicIterator
  | 0 => some it
  | k + 1 =>
    match it.incr m with
    | none => none
    | some it1 => it1.advance m k

/-- `Chain m p ps xs`: following `next_node` from `p` visits the nodes at the
addresses `ps`, which hold the values `xs`, and then reaches `nullptr`. -/
inductive Chain (m : Memory α) : Nat → List Nat → List α → Prop
  | nil : Chain m 0 [] []
  | cons {p nx : Nat} {x : α} {ps : List Nat} {xs : List α} :
      load m p = some ⟨x, nx⟩ → Chain m nx ps xs → Chain m p (p :: ps) (x :: xs)

/-- `Rep m L ps xs`: the list object `L` is alive in `m`, and the chain behind
its sentinel consists of the nodes `ps` with the values `xs`. -/
def Rep (m : Memory α) (L : SingleLinkedList) (ps : List Nat) (xs : List α) : Prop :=
  ∃ h, load m L.head_ = some h ∧ Chain m h.next_node ps xs

/-- The two writes of `EraseAfter` (and of `PopFront`), applied at the node `q`
whose successor is `d`, which holds `dn`. -/
def unlink (m : Memory α) (q : Nat) (n dn : Node α) : Memory α :=
  free (store m q { n with next_node := dn.next_node }) n.next_node

/-- Lexicographic "less" on the element sequences, by the first position that
decides: the value the loop of `std::lexicographical_compare` computes. -/
def lexLt [LT α] [DecidableRel (fun a b : α => a < b)] : List α → List α → Bool
  | [], [] => false
  | [], _ :: _ => true
  | _ :: _, [] => false
  | x :: xs, y :: ys => if x < y then true else if y < x then false else lexLt xs ys

/-- The memory after constructing, in this order, the lists `{1, 2}`, `{1, 2, 3}`,
`{1, 3}` and `{1, 2, 9}` (sentinels at the addresses 1, 4, 8 and 11). -/
def fourLists : Memory Nat :=
  [some ⟨0, 3⟩, some ⟨2, 0⟩, some ⟨1, 2⟩,
   some ⟨0, 7⟩, some ⟨3, 0⟩, some ⟨2, 5⟩, some ⟨1, 6⟩,
   some ⟨0, 10⟩, some ⟨3, 0⟩, some ⟨1, 9⟩,
   some ⟨0, 14⟩, some ⟨9, 0⟩, some ⟨2, 12⟩, some ⟨1, 13⟩]

/-- The memory holding the one list `{1, 2, 3}` (sentinel at address 1). -/
def oneList : Memory Nat :=
  [some ⟨0, 4⟩, some ⟨3, 0⟩, some ⟨2, 2⟩, some ⟨1, 3⟩]

/-- The writes of `InsertAfter` (and of `PushFront`), applied at the node `q`,
which holds `n`: the new node takes over the successor of `q`. -/
def link (m : Memory α) (q : Nat) (n : Node α) (v : α) : Memory α :=
  store (alloc m ⟨v, n.next_node⟩).2 q { n with next_node := (alloc m ⟨v, n.next_node⟩).1 }

/-- The addresses of the nodes a full iteration
`for (it = first; it != end(); ++it)` visits. -/
def nodesFrom (m : Memory α) : Nat → BasicIterator → Option (List Nat)
  | 0, _ => none
  | fuel + 1, it =>
    if it.ne «end» then
      match it.incr m with
      | some it1 => (nodesFrom m fuel it1).map fun ps => it.node_ :: ps
      | none => none
    else some []

/-- The addresses of the real nodes of a list, in iteration order. -/
def nodes (m : Memory α) (L : SingleLinkedList) : Option (List Nat) :=
  match begin m L with
  | none => none
  | some it => nodesFrom m (m.length + 1) it

/-- The value the loop of the three-iterator `std::equal` computes on the element
sequences of its two ranges: `none` when the first range still has an element and
the second is exhausted, where the loop reads `*first2` through `nullptr`. -/
def equalResult [DecidableEq α] : List α → List α → Option Bool
  | [], _ => some true
  | _ :: _, [] => none
  | x :: xs, y :: ys => if x = y then equalResult xs ys else some false

/-- An element type whose `operator<` compares the key alone: two values with the
same key and different tags differ, yet neither is less than the other. -/
structure Keyed where
  key : Nat
  tag : Nat
deriving DecidableEq, Repr, Inhabited

/-- The `operator<` of `Keyed`: by key. -/
instance Keyed.instLT : LT Keyed := ⟨fun a b => a.key < b.key⟩

/-- The `operator<` of `Keyed` is computable. -/
instance Keyed.decLt : DecidableRel (fun a b : Keyed => a < b) :=
  fun a b => Nat.decLt a.key b.key

/-! ## Memory lemmas -/

theorem load_eq_some_iff (m : Memory α) (p : Nat) (n : Node α) :
    load m p = some n ↔ ∃ a, p = a + 1 ∧ m[a]? = some (some n) := by
  cases p with
  | zero => simp [load]
  | succ a =>
    simp only [load, List.getD_eq_getElem?_getD, Nat.succ.injEq, exists_eq_left']
    cases h : m[a]? with
    | none => simp
    | some o => simp

theorem load_zero (m : Memory α) : load m 0 = none := rfl

theorem load_some_ne_zero {m : Memory α} {p : Nat} {n : Node α} (h : load m p = some n) :
    p ≠ 0 := by
  rintro rfl; simp [load] at h

theorem load_some_le {m : Memory α} {p : Nat} {n : Node α} (h : load m p = some n) :
    p ≤ m.length := by
  obtain ⟨a, rfl, ha⟩ := (load_eq_some_iff m p n).1 h
  have := (List.getElem?_eq_some_iff.1 ha).1
  omega

theorem load_store_same {m : Memory α} {p : Nat} {n0 : Node α} (h : load m p = some n0)
    (n : Node α) : load (store m p n) p = some n := by
  obtain ⟨a, rfl, ha⟩ := (load_eq_some_iff m p n0).1 h
  have hlt := (List.getElem?_eq_some_iff.1 ha).1
  simp [load, store, List.getD_eq_getElem?_getD, List.getElem?_set, hlt]

theorem load_store_ne (m : Memory α) {p q : Nat} (n : Node α) (h : q ≠ p) :
    load (store m p n) q = load m q := by
  cases p with
  | zero => rfl
  | succ a =>
    cases q with
    | zero => rfl
    | succ b =>
      have hab : a ≠ b := by omega
      simp [load, store, List.getD_eq_getElem?_getD, List.getElem?_set, hab]

theorem load_free_same (m : Memory α) (p : Nat) : load (free m p) p = none := by
  cases p with
  | zero => rfl
  | succ a =>
    simp only [load, free, List.getD_eq_getElem?_getD, List.getElem?_set]
    by_cases h : a < m.length <;> simp [h]

theorem load_free_ne (m : Memory α) {p q : Nat} (h : q ≠ p) :
    load (free m p) q = load m q := by
  cases p with
  | zero => rfl
  | succ a =>
    cases q with
    | zero => rfl
    | succ b =>
      have hab : a ≠ b := by omega
      simp [load, free, List.getD_eq_getElem?_getD, List.getElem?_set, hab]

theorem load_alloc_new (m : Memory α) (n : Node α) :
    load (alloc m n).2 (alloc m n).1 = some n := by
  simp [load, alloc, List.getD_eq_getElem?_getD]

theorem load_alloc_old (m : Memory α) (n : Node α) {q : Nat} (h : q ≤ m.length) :
    load (alloc m n).2 q = load m q := by
  cases q with
  | zero => rfl
  | succ b =>
    have hb : b < m.length := by omega
    simp [load, alloc, List.getD_eq_getElem?_getD, List.getElem?_append_left hb]

theorem length_store (m : Memory α) (p : Nat) (n : Node α) :
    (store m p n).length = m.length := by
  cases p <;> simp [store]

theorem length_free (m : Memory α) (p : Nat) : (free m p).length = m.length := by
  cases p <;> simp [free]

theorem length_alloc (m : Memory α) (n : Node α) : (alloc m n).2.length = m.length + 1 := by
  simp [alloc]

/-! ## Chains of nodes -/

theorem Chain.length_eq {m : Memory α} {p : Nat} {ps : List Nat} {xs : List α}
    (h : Chain m p ps xs) : ps.length = xs.length := by
  induction h with
  | nil => rfl
  | cons _ _ ih => simp [ih]

theorem Chain.unique {m : Memory α} {p : Nat} {ps qs : List Nat} {xs ys : List α}
    (h : Chain m p ps xs) (h2 : Chain m p qs ys) : ps = qs ∧ xs = ys := by
  induction h generalizing qs ys with
  | nil =>
    cases h2 with
    | nil => exact ⟨rfl, rfl⟩
    | cons hl _ => simp [load] at hl
  | cons hl _ ih =>
    cases h2 with
    | nil => simp [load] at hl
    | cons hl2 hc2 =>
      rw [hl] at hl2
      cases hl2
      obtain ⟨h1, h2⟩ := ih hc2
      subst h1 h2
      exact ⟨rfl, rfl⟩

theorem Chain.zero_iff {m : Memory α} {ps : List Nat} {xs : List α} :
    Chain m 0 ps xs ↔ ps = [] ∧ xs = [] := by
  constructor
  · intro h
    cases h with
    | nil => exact ⟨rfl, rfl⟩
    | cons hl _ => simp [load] at hl
  · rintro ⟨rfl, rfl⟩
    exact Chain.nil

theorem Chain.suffix_length {m : Memory α} {q : Nat} {qs : List Nat} {ys : List α}
    (h : Chain m q qs ys) {p : Nat} (hp : p ∈ qs) {P : List Nat} {X : List α}
    (hP : Chain m p P X) : P.length ≤ qs.length := by
  induction h with
  | nil => simp at hp
  | @cons q nx x ps xs hl hc ih =>
    by_cases hpq : p = q
    · subst hpq
      have := (Chain.unique hP (Chain.cons hl hc)).1
      simp [this]
    · have hm : p ∈ ps := by
        rcases List.mem_cons.1 hp with h | h
        · exact absurd h hpq
        · exact h
      have := ih hm
      simp only [List.length_cons]
      omega

theorem Chain.not_mem {m : Memory α} {p nx : Nat} {x : α} {ps : List Nat} {xs : List α}
    (hl : load m p = some ⟨x, nx⟩) (hc : Chain m nx ps xs) : p ∉ ps := by
  intro hp
  have := Chain.suffix_length hc hp (Chain.cons hl hc)
  simp at this

theorem Chain.nodup {m : Memory α} {p : Nat} {ps : List Nat} {xs : List α}
    (h : Chain m p ps xs) : ps.Nodup := by
  induction h with
  | nil => exact List.nodup_nil
  | cons hl hc ih => exact List.nodup_cons.2 ⟨Chain.not_mem hl hc, ih⟩

theorem Chain.mem_bounds {m : Memory α} {p : Nat} {ps : List Nat} {xs : List α}
    (h : Chain m p ps xs) {a : Nat} (ha : a ∈ ps) : a ≠ 0 ∧ a ≤ m.length := by
  induction h with
  | nil => simp at ha
  | cons hl _ ih =>
    rcases List.mem_cons.1 ha with h | h
    · subst h
      exact ⟨load_some_ne_zero hl, load_some_le hl⟩
    · exact ih h

theorem Chain.length_le {m : Memory α} {p : Nat} {ps : List Nat} {xs : List α}
    (h : Chain m p ps xs) : ps.length ≤ m.length := by
  have hsub : ps ⊆ (List.range m.length).map (fun i => i + 1) := by
    intro a ha
    obtain ⟨h0, hle⟩ := h.mem_bounds ha
    refine List.mem_map.2 ⟨a - 1, List.mem_range.2 (by omega), by omega⟩
  have := (List.subperm_of_subset h.nodup hsub).length_le
  simpa using this

theorem Chain.frame {m m2 : Memory α} {p : Nat} {ps : List Nat} {xs : List α}
    (h : Chain m p ps xs) (hf : ∀ a ∈ ps, load m2 a = load m a) : Chain m2 p ps xs := by
  induction h with
  | nil => exact Chain.nil
  | cons hl _ ih =>
    refine Chain.cons ?_ (ih fun a ha => hf a (List.mem_cons_of_mem _ ha))
    rw [hf _ (List.mem_cons_self _ _)]
    exact hl

theorem Chain.cons_inv {m : Memory α} {p a : Nat} {ps : List Nat} {x : α} {xs : List α}
    (h : Chain m p (a :: ps) (x :: xs)) :
    p = a ∧ ∃ nx, load m a = some ⟨x, nx⟩ ∧ Chain m nx ps xs := by
  cases h with
  | cons hl hc => exact ⟨rfl, _, hl, hc⟩

/-- The chain seen from its `i`-th node. -/
theorem Chain.drop {m : Memory α} {p : Nat} {ps : List Nat} {xs : List α}
    (h : Chain m p ps xs) (i : Nat) :
    Chain m ((ps ++ [0]).getD i 0) (ps.drop i) (xs.drop i) := by
  induction h generalizing i with
  | nil => cases i <;> simpa using Chain.nil
  | @cons q nx x ps xs hl hc ih =>
    cases i with
    | zero => simpa using Chain.cons hl hc
    | succ j => simpa using ih j

theorem Chain.head_eq {m : Memory α} {p : Nat} {ps : List Nat} {xs : List α}
    (h : Chain m p ps xs) : (ps ++ [0]).getD 0 0 = p := by
  cases h <;> simp

/-! ## Iteration and chains -/

theorem ne_end_iff (it : BasicIterator) : it.ne «end» = true ↔ it.node_ ≠ 0 := by
  simp [BasicIterator.ne, BasicIterator.eq, SingleLinkedList.end]

theorem collect_null (m : Memory α) (k : Nat) : collect m (k + 1) ⟨0⟩ = some [] := by
  simp [collect, ne_end_iff]

theorem collect_node {m : Memory α} {p : Nat} {n : Node α} (hl : load m p = some n) (k : Nat) :
    collect m (k + 1) ⟨p⟩ = (collect m k ⟨n.next_node⟩).map fun vs => n.value :: vs := by
  have hp : p ≠ 0 := load_some_ne_zero hl
  simp [collect, ne_end_iff, hp, BasicIterator.deref, BasicIterator.incr, hl]

theorem collect_dangling {m : Memory α} {p : Nat} (hp : p ≠ 0) (hl : load m p = none) (k : Nat) :
    collect m (k + 1) ⟨p⟩ = none := by
  simp [collect, ne_end_iff, hp, BasicIterator.deref, BasicIterator.incr, hl]

theorem collect_of_chain {m : Memory α} {p : Nat} {ps : List Nat} {xs : List α}
    (h : Chain m p ps xs) {fuel : Nat} (hf : ps.length < fuel) :
    collect m fuel ⟨p⟩ = some xs := by
  induction h generalizing fuel with
  | nil =>
    cases fuel with
    | zero => omega
    | succ k => exact collect_null m k
  | @cons q nx x ps xs hl hc ih =>
    cases fuel with
    | zero => omega
    | succ k =>
      have hk : ps.length < k := by simpa using hf
      rw [collect_node hl, ih hk]
      rfl

theorem chain_of_collect {m : Memory α} {fuel : Nat} {p : Nat} {xs : List α}
    (h : collect m fuel ⟨p⟩ = some xs) : ∃ ps, Chain m p ps xs := by
  induction fuel generalizing p xs with
  | zero => simp [collect] at h
  | succ k ih =>
    by_cases hp : p = 0
    · subst hp
      rw [collect_null] at h
      cases h
      exact ⟨[], Chain.nil⟩
    · cases hl : load m p with
      | none => rw [collect_dangling hp hl] at h; cases h
      | some n =>
        rw [collect_node hl] at h
        cases hc : collect m k ⟨n.next_node⟩ with
        | none => rw [hc] at h; cases h
        | some vs =>
          rw [hc] at h
          cases h
          obtain ⟨ps, hps⟩ := ih hc
          exact ⟨p :: ps, Chain.cons (by cases n; exact hl) hps⟩

theorem toList_of_rep {m : Memory α} {L : SingleLinkedList} {ps : List Nat} {xs : List α}
    (h : Rep m L ps xs) : toList m L = some xs := by
  obtain ⟨hd, hl, hc⟩ := h
  have := hc.length_le
  simp only [toList, begin, hl, Option.map_some']
  exact collect_of_chain hc (by omega)

theorem rep_of_toList {m : Memory α} {L : SingleLinkedList} {xs : List α}
    (h : toList m L = some xs) : ∃ ps, Rep m L ps xs := by
  unfold toList begin at h
  cases hl : load m L.head_ with
  | none => simp [hl] at h
  | some hd =>
    simp only [hl, Option.map_some'] at h
    obtain ⟨ps, hps⟩ := chain_of_collect h
    exact ⟨ps, hd, hl, hps⟩

theorem Rep.lengths {m : Memory α} {L : SingleLinkedList} {ps : List Nat} {xs : List α}
    (h : Rep m L ps xs) : ps.length = xs.length := by
  obtain ⟨hd, hl, hc⟩ := h
  exact hc.length_eq

theorem Rep.head_not_mem {m : Memory α} {L : SingleLinkedList} {ps : List Nat} {xs : List α}
    (h : Rep m L ps xs) : L.head_ ∉ ps := by
  obtain ⟨hd, hl, hc⟩ := h
  cases hd with
  | mk v nx => exact Chain.not_mem hl hc

theorem Rep.functional {m : Memory α} {L : SingleLinkedList} {ps qs : List Nat} {xs ys : List α}
    (h : Rep m L ps xs) (h2 : Rep m L qs ys) : ps = qs ∧ xs = ys := by
  obtain ⟨hd, hl, hc⟩ := h
  obtain ⟨hd2, hl2, hc2⟩ := h2
  rw [hl] at hl2
  cases hl2
  exact hc.unique hc2

/-! ## Unlinking the node after a position -/

theorem getD_mem {l : List Nat} {i : Nat} (h : i < l.length) : l.getD i 0 ∈ l := by
  rw [List.getD_eq_getElem l 0 h]
  exact List.getElem_mem h

theorem load_unlink_other (m : Memory α) {q a : Nat} (n dn : Node α) (h1 : a ≠ q)
    (h2 : a ≠ n.next_node) : load (unlink m q n dn) a = load m a := by
  unfold unlink
  rw [load_free_ne _ h2, load_store_ne _ _ h1]

theorem load_unlink_self {m : Memory α} {q : Nat} {n : Node α} (dn : Node α)
    (hl : load m q = some n) (h : q ≠ n.next_node) :
    load (unlink m q n dn) q = some { n with next_node := dn.next_node } := by
  unfold unlink
  rw [load_free_ne _ h, load_store_same hl]

theorem Chain.erase_after {m : Memory α} {p : Nat} {H : List Nat} {V : List α}
    (h : Chain m p H V) (i : Nat) (hi : i + 1 < H.length) :
    ∃ n dn, load m (H.getD i 0) = some n ∧ n.next_node = H.getD (i + 1) 0 ∧
      load m n.next_node = some dn ∧ dn.next_node = (H ++ [0]).getD (i + 2) 0 ∧
      H.getD i 0 ≠ n.next_node ∧
      Chain (unlink m (H.getD i 0) n dn) p (H.eraseIdx (i + 1)) (V.eraseIdx (i + 1)) := by
  induction h generalizing i with
  | nil => simp at hi
  | @cons q nx x ps xs hl hc ih =>
    have hq : q ∉ ps := Chain.not_mem hl hc
    cases i with
    | zero =>
      cases hc with
      | nil => simp at hi
      | @cons _ nx2 y ps2 xs2 hl2 hc2 =>
        have hd : nx ∉ ps2 := Chain.not_mem hl2 hc2
        have hqd : q ≠ nx := fun e => hq (e ▸ List.mem_cons_self _ _)
        refine ⟨⟨x, nx⟩, ⟨y, nx2⟩, by simpa using hl, by simp, by simpa using hl2, ?_, by simpa using hqd, ?_⟩
        · have := hc2.head_eq
          simpa using this.symm
        · simp only [List.getD_cons_zero, List.eraseIdx_cons_succ, List.eraseIdx_cons_zero]
          refine Chain.cons (load_unlink_self _ hl hqd) (hc2.frame fun a ha => ?_)
          refine load_unlink_other _ _ _ ?_ ?_
          · rintro rfl; exact hq (List.mem_cons_of_mem _ ha)
          · rintro rfl; exact hd ha
    | succ j =>
      have hj : j + 1 < ps.length := by simpa using hi
      obtain ⟨n, dn, h1, h2, h3, h4, h5, h6⟩ := ih j hj
      refine ⟨n, dn, by simpa using h1, by simpa using h2, h3, by simpa using h4,
        by simpa using h5, ?_⟩
      simp only [List.getD_cons_succ, List.eraseIdx_cons_succ]
      refine Chain.cons ?_ h6
      rw [load_unlink_other _ _ _ ?_ ?_]
      · exact hl
      · intro e; exact hq (e ▸ getD_mem (by omega))
      · intro e; rw [h2] at e; exact hq (e ▸ getD_mem hj)

/-- The chain behind the sentinel, the sentinel included. -/
theorem Rep.chain {m : Memory α} {L : SingleLinkedList} {ps : List Nat} {xs : List α}
    (h : Rep m L ps xs) : ∃ v, Chain m L.head_ (L.head_ :: ps) (v :: xs) := by
  obtain ⟨hd, hl, hc⟩ := h
  exact ⟨hd.value, Chain.cons (by cases hd; exact hl) hc⟩

theorem rep_of_chain {m : Memory α} {L : SingleLinkedList} {ps : List Nat} {v : α} {xs : List α}
    (h : Chain m L.head_ (L.head_ :: ps) (v :: xs)) : Rep m L ps xs := by
  obtain ⟨_, nx, hl, hc⟩ := h.cons_inv
  exact ⟨_, hl, hc⟩

/-! ## Cursors along a chain -/

theorem getD_singleton_zero (i : Nat) : ([0] : List Nat).getD i 0 = 0 := by
  cases i <;> simp

theorem getD_append_zero_of_le {l : List Nat} {i : Nat} (h : l.length ≤ i) :
    (l ++ [0]).getD i 0 = 0 := by
  induction l generalizing i with
  | nil => exact getD_singleton_zero i
  | cons a l ih =>
    cases i with
    | zero => simp at h
    | succ j => simpa using ih (by simpa using h)

theorem getD_append_zero_of_lt {l : List Nat} {i : Nat} (h : i < l.length) :
    (l ++ [0]).getD i 0 = l.getD i 0 := by
  induction l generalizing i with
  | nil => simp at h
  | cons a l ih =>
    cases i with
    | zero => simp
    | succ j => simpa using ih (by simpa using h)

theorem incr_null (m : Memory α) : BasicIterator.incr m ⟨0⟩ = some ⟨0⟩ := by
  simp [BasicIterator.incr]

theorem incr_node {m : Memory α} {p : Nat} {n : Node α} (hl : load m p = some n) :
    BasicIterator.incr m ⟨p⟩ = some ⟨n.next_node⟩ := by
  simp [BasicIterator.incr, load_some_ne_zero hl, hl]

theorem Chain.advance {m : Memory α} {p : Nat} {H : List Nat} {V : List α}
    (h : Chain m p H V) (i : Nat) :
    BasicIterator.advance m ⟨p⟩ i = some ⟨(H ++ [0]).getD i 0⟩ := by
  induction i generalizing p H V with
  | zero => rw [h.head_eq]; rfl
  | succ j ih =>
    cases h with
    | nil =>
      have := ih (Chain.nil (m := m))
      simp only [BasicIterator.advance, incr_null, this]
      simp [getD_singleton_zero]
    | cons hl hc =>
      simp only [BasicIterator.advance, incr_node hl, ih hc]
      simp

theorem Chain.deref {m : Memory α} {p : Nat} {H : List Nat} {V : List α}
    (h : Chain m p H V) (i : Nat) :
    BasicIterator.deref m ⟨(H ++ [0]).getD i 0⟩ = V[i]? := by
  induction h generalizing i with
  | nil => simp [getD_singleton_zero, BasicIterator.deref, load]
  | cons hl hc ih =>
    cases i with
    | zero => simp [BasicIterator.deref, hl]
    | succ j => simpa using ih j

/-! ## `EraseAfter` -/

theorem EraseAfter_rep {m : Memory α} {L : SingleLinkedList} {ps : List Nat} {xs : List α}
    (h : Rep m L ps xs) (i : Nat) (hi : i < ps.length) :
    ∃ m2, EraseAfter m L ⟨(L.head_ :: ps).getD i 0⟩
        = some (m2, L, ⟨(ps ++ [0]).getD (i + 1) 0⟩) ∧
      Rep m2 L (ps.eraseIdx i) (xs.eraseIdx i) := by
  obtain ⟨v, hc⟩ := h.chain
  obtain ⟨n, dn, h1, h2, h3, h4, h5, h6⟩ := hc.erase_after i (by simpa using hi)
  refine ⟨unlink m ((L.head_ :: ps).getD i 0) n dn, ?_, ?_⟩
  · have h7 := load_unlink_self dn h1 h5
    unfold unlink at h7
    simp only [EraseAfter, h1, h3, h7]
    simp [unlink, h4]
  · simp only [List.eraseIdx_cons_succ] at h6
    exact rep_of_chain h6

theorem position_of_advance {m : Memory α} {L : SingleLinkedList} {ps : List Nat}
    {xs : List α} (h : Rep m L ps xs) {i : Nat} {pos : BasicIterator}
    (hpos : L.before_begin.advance m i = some pos) (hi : i ≤ ps.length) :
    pos = ⟨(L.head_ :: ps).getD i 0⟩ := by
  obtain ⟨v, hc⟩ := h.chain
  have := hc.advance i
  rw [before_begin] at hpos
  rw [this] at hpos
  cases hpos
  rw [getD_append_zero_of_lt (by simpa using Nat.lt_succ_of_le hi)]

/-! ## `PushFront` and `PopFront` -/

theorem PushFront_rep {m : Memory α} {L : SingleLinkedList} {ps : List Nat} {xs : List α}
    (h : Rep m L ps xs) (v : α) :
    ∃ m2, PushFront m L v = some (m2, ⟨L.head_, L.size_ + 1⟩) ∧
      Rep m2 ⟨L.head_, L.size_ + 1⟩ ((m.length + 1) :: ps) (v :: xs) ∧
      m2.length = m.length + 1 ∧ ∀ a, a ≠ L.head_ → a ≤ m.length → load m2 a = load m a := by
  have hnm := h.head_not_mem
  obtain ⟨hd, hl, hc⟩ := h
  have hle := load_some_le hl
  have hl1 : load (alloc m ⟨v, hd.next_node⟩).2 L.head_ = some hd := by
    rw [load_alloc_old _ _ hle, hl]
  have hframe : ∀ a, a ≠ L.head_ → a ≤ m.length →
      load (store (alloc m ⟨v, hd.next_node⟩).2 L.head_
        { hd with next_node := (alloc m ⟨v, hd.next_node⟩).1 }) a = load m a := by
    intro a h1 h2
    rw [load_store_ne _ _ h1, load_alloc_old _ _ h2]
  refine ⟨_, by simp only [PushFront, hl], ⟨_, load_store_same hl1 _, ?_⟩, ?_, hframe⟩
  · refine @Chain.cons _ _ _ hd.next_node v _ _ ?_ (hc.frame fun a ha => ?_)
    · have hne : (alloc m ⟨v, hd.next_node⟩).1 ≠ L.head_ := by
        simp only [alloc]; omega
      rw [load_store_ne _ _ hne]
      exact load_alloc_new _ _
    · exact hframe a (fun e => hnm (e ▸ ha)) (hc.mem_bounds ha).2
  · rw [length_store, length_alloc]

theorem PopFront_rep {m : Memory α} {L : SingleLinkedList} {p : Nat} {ps : List Nat} {x : α}
    {xs : List α} (h : Rep m L (p :: ps) (x :: xs)) :
    ∃ m2, PopFront m L = some (m2, ⟨L.head_, L.size_ - 1⟩) ∧
      Rep m2 ⟨L.head_, L.size_ - 1⟩ ps xs := by
  obtain ⟨v, hc⟩ := h.chain
  obtain ⟨n, dn, h1, h2, h3, h4, h5, h6⟩ := hc.erase_after 0 (by simp)
  simp only [List.getD_cons_zero] at h1 h5 h6
  refine ⟨unlink m L.head_ n dn, ?_, ?_⟩
  · simp only [PopFront, h1, h3]
    rfl
  · simp only [List.eraseIdx_cons_succ, List.eraseIdx_cons_zero] at h6
    exact rep_of_chain (L := ⟨L.head_, L.size_ - 1⟩) h6

/-! ## Construction -/

theorem create_rep [Inhabited α] (m : Memory α) :
    Rep (create m).1 (create m).2 [] [] ∧ (create m).2.size_ = 0 := by
  refine ⟨⟨⟨default, 0⟩, ?_, Chain.nil⟩, rfl⟩
  exact load_alloc_new m ⟨default, 0⟩

theorem pushAll_rep {m : Memory α} {L : SingleLinkedList} {ps : List Nat} {xs : List α}
    (h : Rep m L ps xs) (vs : List α) :
    ∃ m2 qs, pushAll m L vs = some (m2, ⟨L.head_, L.size_ + vs.length⟩) ∧
      Rep m2 ⟨L.head_, L.size_ + vs.length⟩ qs (vs.reverse ++ xs) := by
  induction vs generalizing m L ps xs with
  | nil => exact ⟨m, ps, rfl, by simpa using h⟩
  | cons v rest ih =>
    obtain ⟨m1, h1, h2, _⟩ := PushFront_rep h v
    obtain ⟨m2, qs, h3, h4⟩ := ih h2
    refine ⟨m2, qs, ?_, ?_⟩
    · simp only [pushAll, h1, h3, List.length_cons]
      simp [Nat.add_assoc, Nat.add_comm 1]
    · simpa [Nat.add_assoc, Nat.add_comm 1] using h4

theorem ofInitializerList_rep [Inhabited α] (m : Memory α) (values : List α) :
    ∃ m2 h qs, ofInitializerList m values = some (m2, ⟨h, values.length⟩) ∧
      Rep m2 ⟨h, values.length⟩ qs values := by
  obtain ⟨h0, _⟩ := create_rep m
  obtain ⟨m2, qs, h1, h2⟩ := pushAll_rep h0 values.reverse
  refine ⟨m2, (create m).2.head_, qs, ?_, ?_⟩
  · simp only [ofInitializerList, h1]
    rfl
  · obtain ⟨hd, hl, hc⟩ := h2
    exact ⟨hd, hl, by simpa using hc⟩

/-! ## `operator<` -/

theorem ne_end_null : BasicIterator.ne ⟨0⟩ «end» = false := rfl

theorem eq_end_null : BasicIterator.eq ⟨0⟩ «end» = true := rfl

theorem ne_end_node {p : Nat} (hp : p ≠ 0) : BasicIterator.ne ⟨p⟩ «end» = true := by
  simp [BasicIterator.ne, BasicIterator.eq, SingleLinkedList.end, hp]

theorem eq_end_node {p : Nat} (hp : p ≠ 0) : BasicIterator.eq ⟨p⟩ «end» = false := by
  simp [BasicIterator.eq, SingleLinkedList.end, hp]

theorem deref_node {m : Memory α} {p : Nat} {n : Node α} (hl : load m p = some n) :
    BasicIterator.deref m ⟨p⟩ = some n.value := by
  simp [BasicIterator.deref, hl]

theorem std_lexicographical_compare_of_chain [LT α] [DecidableRel (fun a b : α => a < b)]
    {m : Memory α} {p : Nat} {ps : List Nat} {xs : List α} (h : Chain m p ps xs)
    {q : Nat} {qs : List Nat} {ys : List α} (h2 : Chain m q qs ys)
    {fuel : Nat} (hf : ps.length < fuel) :
    std_lexicographical_compare m fuel ⟨p⟩ «end» ⟨q⟩ «end» = some (lexLt xs ys) := by
  induction h generalizing q qs ys fuel with
  | nil =>
    cases fuel with
    | zero => omega
    | succ k =>
      cases h2 with
      | nil => simp [std_lexicographical_compare, ne_end_null, eq_end_null, lexLt]
      | cons hl2 hc2 =>
        have := load_some_ne_zero hl2
        simp [std_lexicographical_compare, ne_end_null, eq_end_null, ne_end_node this, lexLt]
  | @cons p nx x ps xs hl hc ih =>
    cases fuel with
    | zero => omega
    | succ k =>
      have hp := load_some_ne_zero hl
      cases h2 with
      | nil =>
        simp [std_lexicographical_compare, ne_end_null, ne_end_node hp, eq_end_node hp, lexLt]
      | @cons _ nx2 y qs ys hl2 hc2 =>
        have hq := load_some_ne_zero hl2
        have hk : ps.length < k := by simpa using hf
        simp only [std_lexicographical_compare, ne_end_node hp, ne_end_node hq, deref_node hl,
          deref_node hl2, incr_node hl, incr_node hl2, ih hc2 hk, lexLt]
        by_cases h1 : x < y
        · simp [h1]
        · by_cases h3 : y < x <;> simp [h1, h3]

theorem lexLt_iff [LinearOrder α] (xs ys : List α) :
    lexLt xs ys = true ↔
      (xs <+: ys ∧ xs ≠ ys) ∨
      ∃ i x y, xs.take i = ys.take i ∧ xs[i]? = some x ∧ ys[i]? = some y ∧ x < y := by
  induction xs generalizing ys with
  | nil =>
    cases ys with
    | nil => simp [lexLt]
    | cons y ys => simp [lexLt]
  | cons x xs ih =>
    cases ys with
    | nil => simp [lexLt]
    | cons y ys =>
      rcases lt_trichotomy x y with hlt | heq | hgt
      · simp only [lexLt, hlt, if_true, true_iff]
        exact Or.inr ⟨0, x, y, by simp, by simp, by simp, hlt⟩
      · subst heq
        simp only [lexLt, lt_irrefl, if_false, ih ys]
        constructor
        · rintro (⟨h1, h2⟩ | ⟨i, a, b, h1, h2, h3, h4⟩)
          · exact Or.inl ⟨by simpa [List.cons_prefix_cons] using h1, by simpa using h2⟩
          · exact Or.inr ⟨i + 1, a, b, by simpa using h1, by simpa using h2, by simpa using h3, h4⟩
        · rintro (⟨h1, h2⟩ | ⟨i, a, b, h1, h2, h3, h4⟩)
          · exact Or.inl ⟨by simpa [List.cons_prefix_cons] using h1, by simpa using h2⟩
          · cases i with
            | zero =>
              simp only [List.getElem?_cons_zero, Option.some.injEq] at h2 h3
              subst h2 h3
              exact absurd h4 (lt_irrefl _)
            | succ j =>
              exact Or.inr ⟨j, a, b, by simpa using h1, by simpa using h2, by simpa using h3, h4⟩
      · have hn : ¬ x < y := not_lt.2 hgt.le
        simp only [lexLt, hn, hgt, if_false, if_true, Bool.false_eq_true, false_iff]
        rintro (⟨h1, _⟩ | ⟨i, a, b, h1, h2, h3, h4⟩)
        · have := (List.cons_prefix_cons.1 h1).1
          exact absurd (this ▸ hgt) (lt_irrefl _)
        · cases i with
          | zero =>
            simp only [List.getElem?_cons_zero, Option.some.injEq] at h2 h3
            subst h2 h3
            exact absurd h4 hn
          | succ j =>
            simp only [List.take_succ_cons, List.cons.injEq] at h1
            exact absurd (h1.1 ▸ hgt) (lt_irrefl _)

theorem operator_lt_rep [LT α] [DecidableRel (fun a b : α => a < b)] {m : Memory α}
    {a b : SingleLinkedList} {ps qs : List Nat} {xs ys : List α}
    (ha : Rep m a ps xs) (hb : Rep m b qs ys) : operator_lt m a b = some (lexLt xs ys) := by
  obtain ⟨hd, hl, hc⟩ := ha
  obtain ⟨hd2, hl2, hc2⟩ := hb
  have := hc.length_le
  simp only [operator_lt, begin, hl, hl2, Option.map_some']
  exact std_lexicographical_compare_of_chain hc hc2 (by omega)

/-! ## The claims -/

/-- C1, the size invariant, evaluated on the list `{1, 2, 3}` built by the
initializer-list constructor: after `EraseAfter(before_begin())` a full iteration
yields the two elements `2, 3`, while `GetSize()` still returns `3`. -/
theorem size_invariant_fails_after_EraseAfter :
    ∃ m L m2 L2 ret, ofInitializerList ([] : Memory Nat) [1, 2, 3] = some (m, L) ∧
      EraseAfter m L L.before_begin = some (m2, L2, ret) ∧
      toList m2 L2 = some [2, 3] ∧ (toList m2 L2).map List.length = some 2 ∧
      L2.GetSize = 3 :=
  ⟨_, _, _, _, _, rfl, rfl, rfl, rfl, rfl⟩

/-- C2, list equality, evaluated on `{1, 2}` and `{1, 2, 3}`: with the shorter list
on the left `operator==` returns `true` although the lengths differ; with the
longer list on the left the comparison reads through the null cursor of the
right-hand list and has no defined result. -/
theorem operator_eq_true_on_proper_prefix :
    ∃ m1 A m B, ofInitializerList ([] : Memory Nat) [1, 2] = some (m1, A) ∧
      ofInitializerList m1 [1, 2, 3] = some (m, B) ∧
      toList m A = some [1, 2] ∧ toList m B = some [1, 2, 3] ∧
      operator_eq m A B = some true ∧ operator_eq m B A = none :=
  ⟨_, _, _, _, rfl, rfl, rfl, rfl, rfl, rfl⟩

/-- C3: for every list and every position (`i` increments after `before_begin()`)
whose node has a real successor, `EraseAfter(position)` returns and leaves
`GetSize()` as it was: the counter is not decremented. -/
theorem EraseAfter_leaves_GetSize (m : Memory α) (L : SingleLinkedList) (xs : List α)
    (i : Nat) (pos : BasicIterator) (hxs : toList m L = some xs)
    (hpos : L.before_begin.advance m i = some pos) (hi : i < xs.length) :
    ∃ m2 L2 ret, EraseAfter m L pos = some (m2, L2, ret) ∧
      toList m2 L2 = some (xs.eraseIdx i) ∧ L2.GetSize = L.GetSize := by
  obtain ⟨ps, hrep⟩ := rep_of_toList hxs
  have hlen := hrep.lengths
  have hp := position_of_advance hrep hpos (by omega)
  subst hp
  obtain ⟨m2, h1, h2⟩ := EraseAfter_rep hrep i (by omega)
  exact ⟨m2, L, _, h1, toList_of_rep h2, rfl⟩

/-- The list `{1, 2, 3}` and the position of its first element: `GetSize()` is `3`
before and after `EraseAfter`, with the elements `1, 3` left. -/
theorem EraseAfter_leaves_GetSize_witness :
    toList oneList ⟨1, 3⟩ = some [1, 2, 3] ∧
    (before_begin ⟨1, 3⟩).advance oneList 1 = some ⟨4⟩ ∧
    ∃ m2 L2 ret, EraseAfter oneList ⟨1, 3⟩ ⟨4⟩ = some (m2, L2, ret) ∧
      toList m2 L2 = some [1, 3] ∧ L2.GetSize = 3 :=
  ⟨rfl, rfl, EraseAfter_leaves_GetSize oneList ⟨1, 3⟩ [1, 2, 3] 1 ⟨4⟩ rfl rfl (by decide)⟩

/-- C5, amended to a totally ordered element type: for lists `a`, `b` with the
elements `xs`, `ys` of such a type,
`a < b` returns, and it returns `true` exactly when `xs` is a strict prefix of `ys`
or, at the first index `i` where they differ (they agree on the `i` elements
before it), the element of `xs` is less than the element of `ys`. -/
theorem operator_lt_lexicographic [LinearOrder α] (m : Memory α) (a b : SingleLinkedList)
    (xs ys : List α) (ha : toList m a = some xs) (hb : toList m b = some ys) :
    ∃ r, operator_lt m a b = some r ∧
      (r = true ↔ (xs <+: ys ∧ xs ≠ ys) ∨
        ∃ i x y, xs.take i = ys.take i ∧ xs[i]? = some x ∧ ys[i]? = some y ∧ x < y) := by
  obtain ⟨ps, hra⟩ := rep_of_toList ha
  obtain ⟨qs, hrb⟩ := rep_of_toList hb
  exact ⟨_, operator_lt_rep hra hrb, lexLt_iff xs ys⟩

/-- The two examples of C5: `{1, 2} < {1, 2, 3}` is true, `{1, 3} < {1, 2, 9}` is
false. -/
theorem operator_lt_lexicographic_witness :
    (toList fourLists ⟨1, 2⟩ = some [1, 2] ∧ toList fourLists ⟨4, 3⟩ = some [1, 2, 3] ∧
      operator_lt fourLists ⟨1, 2⟩ ⟨4, 3⟩ = some true ∧
      ∃ r, operator_lt fourLists ⟨1, 2⟩ ⟨4, 3⟩ = some r ∧
        (r = true ↔ ([1, 2] <+: [1, 2, 3] ∧ [1, 2] ≠ [1, 2, 3]) ∨
          ∃ i x y, [1, 2].take i = [1, 2, 3].take i ∧ [1, 2][i]? = some x ∧
            [1, 2, 3][i]? = some y ∧ x < y)) ∧
    (toList fourLists ⟨8, 2⟩ = some [1, 3] ∧ toList fourLists ⟨11, 3⟩ = some [1, 2, 9] ∧
      operator_lt fourLists ⟨8, 2⟩ ⟨11, 3⟩ = some false ∧
      ∃ r, operator_lt fourLists ⟨8, 2⟩ ⟨11, 3⟩ = some r ∧
        (r = true ↔ ([1, 3] <+: [1, 2, 9] ∧ [1, 3] ≠ [1, 2, 9]) ∨
          ∃ i x y, [1, 3].take i = [1, 2, 9].take i ∧ [1, 3][i]? = some x ∧
            [1, 2, 9][i]? = some y ∧ x < y)) :=
  ⟨⟨rfl, rfl, rfl, operator_lt_lexicographic fourLists ⟨1, 2⟩ ⟨4, 3⟩ [1, 2] [1, 2, 3] rfl rfl⟩,
   ⟨rfl, rfl, rfl, operator_lt_lexicographic fourLists ⟨8, 2⟩ ⟨11, 3⟩ [1, 3] [1, 2, 9] rfl rfl⟩⟩

/-- C6: for every memory and every input sequence `values`, the empty one included,
the initializer-list constructor returns a list whose iteration yields exactly
`values`, in the input's order, and whose `GetSize()` is the input length. -/
theorem ofInitializerList_spec [Inhabited α] (m : Memory α) (values : List α) :
    ∃ m2 L, ofInitializerList m values = some (m2, L) ∧
      toList m2 L = some values ∧ L.GetSize = values.length := by
  obtain ⟨m2, h, qs, h1, h2⟩ := ofInitializerList_rep m values
  exact ⟨m2, _, h1, toList_of_rep h2, rfl⟩

theorem load_link_self {m : Memory α} {q : Nat} {n : Node α} (hl : load m q = some n) (v : α) :
    load (link m q n v) q = some { n with next_node := m.length + 1 } := by
  have h1 : load (alloc m ⟨v, n.next_node⟩).2 q = some n := by
    rw [load_alloc_old _ _ (load_some_le hl), hl]
  exact load_store_same h1 _

theorem load_link_new {m : Memory α} {q : Nat} {n : Node α} (hl : load m q = some n) (v : α) :
    load (link m q n v) (m.length + 1) = some ⟨v, n.next_node⟩ := by
  have hle := load_some_le hl
  have hne : m.length + 1 ≠ q := by omega
  unfold link
  rw [load_store_ne _ _ hne]
  exact load_alloc_new m ⟨v, n.next_node⟩

theorem load_link_other (m : Memory α) {q a : Nat} (n : Node α) (v : α) (h1 : a ≠ q)
    (h2 : a ≤ m.length) : load (link m q n v) a = load m a := by
  unfold link
  rw [load_store_ne _ _ h1, load_alloc_old _ _ h2]

theorem length_link (m : Memory α) (q : Nat) (n : Node α) (v : α) :
    (link m q n v).length = m.length + 1 := by
  unfold link
  rw [length_store, length_alloc]

theorem Chain.insert_after {m : Memory α} {p : Nat} {H : List Nat} {V : List α}
    (h : Chain m p H V) (i : Nat) (hi : i < H.length) (v : α) :
    ∃ n, load m (H.getD i 0) = some n ∧ n.next_node = (H ++ [0]).getD (i + 1) 0 ∧
      Chain (link m (H.getD i 0) n v) p (H.take (i + 1) ++ (m.length + 1) :: H.drop (i + 1))
        (V.take (i + 1) ++ v :: V.drop (i + 1)) := by
  induction h generalizing i with
  | nil => simp at hi
  | @cons q nx x ps xs hl hc ih =>
    have hq : q ∉ ps := Chain.not_mem hl hc
    have hqle := load_some_le hl
    cases i with
    | zero =>
      refine ⟨⟨x, nx⟩, by simpa using hl, ?_, ?_⟩
      · have := hc.head_eq
        simpa using this.symm
      · simp only [List.getD_cons_zero, Nat.zero_add, List.take_succ_cons, List.take_zero,
          List.drop_succ_cons, List.drop_zero, List.cons_append, List.nil_append]
        refine Chain.cons (load_link_self hl v) (Chain.cons (load_link_new hl v) ?_)
        refine hc.frame fun a ha => load_link_other _ _ _ ?_ (hc.mem_bounds ha).2
        rintro rfl
        exact hq ha
    | succ j =>
      have hj : j < ps.length := by simpa using hi
      obtain ⟨n, h1, h2, h3⟩ := ih j hj
      refine ⟨n, by simpa using h1, by simpa using h2, ?_⟩
      simp only [List.getD_cons_succ, List.take_succ_cons, List.drop_succ_cons,
        List.cons_append]
      refine Chain.cons ?_ h3
      rw [load_link_other _ _ _ ?_ hqle]
      · exact hl
      · intro e
        exact hq (e ▸ getD_mem hj)

theorem InsertAfter_rep {m : Memory α} {L : SingleLinkedList} {ps : List Nat} {xs : List α}
    (h : Rep m L ps xs) (i : Nat) (hi : i ≤ ps.length) (v : α) :
    ∃ n, load m ((L.head_ :: ps).getD i 0) = some n ∧
      n.next_node = (ps ++ [0]).getD i 0 ∧
      InsertAfter m L ⟨(L.head_ :: ps).getD i 0⟩ v
        = some (link m ((L.head_ :: ps).getD i 0) n v, ⟨L.head_, L.size_ + 1⟩,
            ⟨m.length + 1⟩) ∧
      Rep (link m ((L.head_ :: ps).getD i 0) n v) ⟨L.head_, L.size_ + 1⟩
        (ps.take i ++ (m.length + 1) :: ps.drop i) (xs.take i ++ v :: xs.drop i) := by
  obtain ⟨v0, hc⟩ := h.chain
  obtain ⟨n, h1, h2, h3⟩ := hc.insert_after i (by simpa using Nat.lt_succ_of_le hi) v
  refine ⟨n, h1, by simpa using h2, ?_, ?_⟩
  · simp only [InsertAfter, h1]
    rfl
  · simp only [List.take_succ_cons, List.drop_succ_cons, List.cons_append] at h3
    exact rep_of_chain (L := ⟨L.head_, L.size_ + 1⟩) h3

/-- C11: for a list with the elements `xs`, the position reached by `i ≤ xs.length`
increments from `before_begin()` (`i = 0` is `before_begin()`, `i ≥ 1` the `i`-th
element) and every value `v`: `InsertAfter(position, v)` returns; the list then
holds `xs` with `v` inserted right after the position, all other elements
unchanged and in order; the returned cursor dereferences to `v`, is the successor
of the position, and has the position's old successor as its own; `GetSize()` has
grown by exactly one. -/
theorem InsertAfter_spec (m : Memory α) (L : SingleLinkedList) (xs : List α) (i : Nat)
    (pos : BasicIterator) (v : α) (hxs : toList m L = some xs)
    (hpos : L.before_begin.advance m i = some pos) (hi : i ≤ xs.length) :
    ∃ m2 L2 ret, InsertAfter m L pos v = some (m2, L2, ret) ∧
      toList m2 L2 = some (xs.take i ++ v :: xs.drop i) ∧
      ret.deref m2 = some v ∧
      pos.incr m2 = some ret ∧
      (∃ old, pos.incr m = some old ∧ ret.incr m2 = some old) ∧
      L2.GetSize = L.GetSize + 1 := by
  obtain ⟨ps, hrep⟩ := rep_of_toList hxs
  have hlen := hrep.lengths
  have hp := position_of_advance hrep hpos (by omega)
  subst hp
  obtain ⟨n, h1, h2, h3, h4⟩ := InsertAfter_rep hrep i (by omega) v
  refine ⟨_, _, _, h3, toList_of_rep h4, ?_, ?_, ⟨⟨n.next_node⟩, incr_node h1, ?_⟩, rfl⟩
  · exact deref_node (load_link_new h1 v)
  · exact incr_node (load_link_self h1 v)
  · have := incr_node (load_link_new h1 v)
    exact this

/-- The scenario of C11: `InsertAfter(before_begin(), 0)` on `{1, 2}` gives
`{0, 1, 2}`, size 3. -/
theorem InsertAfter_spec_witness :
    ofInitializerList ([] : Memory Nat) [1, 2]
      = some ([some ⟨0, 3⟩, some ⟨2, 0⟩, some ⟨1, 2⟩], ⟨1, 2⟩) ∧
    toList ([some ⟨0, 3⟩, some ⟨2, 0⟩, some ⟨1, 2⟩] : Memory Nat) ⟨1, 2⟩ = some [1, 2] ∧
    ∃ m2 L2 ret,
      InsertAfter ([some ⟨0, 3⟩, some ⟨2, 0⟩, some ⟨1, 2⟩] : Memory Nat) ⟨1, 2⟩
        (before_begin ⟨1, 2⟩) 0 = some (m2, L2, ret) ∧
      toList m2 L2 = some [0, 1, 2] ∧
      ret.deref m2 = some 0 ∧
      (before_begin ⟨1, 2⟩).incr m2 = some ret ∧
      (∃ old, (before_begin ⟨1, 2⟩).incr
          ([some ⟨0, 3⟩, some ⟨2, 0⟩, some ⟨1, 2⟩] : Memory Nat) = some old ∧
        ret.incr m2 = some old) ∧
      L2.GetSize = 2 + 1 :=
  ⟨rfl, rfl, InsertAfter_spec ([some ⟨0, 3⟩, some ⟨2, 0⟩, some ⟨1, 2⟩] : Memory Nat) ⟨1, 2⟩
    [1, 2] 0 (before_begin ⟨1, 2⟩) 0 rfl rfl (by decide)⟩

/-- C17: for every list `L` with the elements `xs` and every value `v`,
`PushFront(v)` and `InsertAfter(before_begin(), v)` both return and leave the
same memory and the same list object (elements `v :: xs`, `GetSize()` one more),
and the cursor `InsertAfter` returns is `begin()` of the result. -/
theorem PushFront_eq_InsertAfter_before_begin (m : Memory α) (L : SingleLinkedList) (v : α)
    (xs : List α) (hxs : toList m L = some xs) :
    ∃ m2 L2 ret, PushFront m L v = some (m2, L2) ∧
      InsertAfter m L L.before_begin v = some (m2, L2, ret) ∧
      toList m2 L2 = some (v :: xs) ∧ L2.GetSize = L.GetSize + 1 ∧
      L2.begin m2 = some ret := by
  obtain ⟨ps, hrep⟩ := rep_of_toList hxs
  obtain ⟨n, h1, h2, h3, h4⟩ := InsertAfter_rep hrep 0 (Nat.zero_le _) v
  simp only [List.getD_cons_zero, List.take_zero, List.drop_zero, List.nil_append] at h1 h3 h4
  refine ⟨_, _, _, ?_, h3, toList_of_rep h4, rfl, ?_⟩
  · simp only [PushFront, h1]
    rfl
  · simp only [begin, load_link_self h1 v, Option.map_some']

/-- The list `{1, 2, 3}` and the value `0`: both calls give `{0, 1, 2, 3}`. -/
theorem PushFront_eq_InsertAfter_before_begin_witness :
    toList oneList ⟨1, 3⟩ = some [1, 2, 3] ∧
    ∃ m2 L2 ret, PushFront oneList ⟨1, 3⟩ 0 = some (m2, L2) ∧
      InsertAfter oneList ⟨1, 3⟩ (before_begin ⟨1, 3⟩) 0 = some (m2, L2, ret) ∧
      toList m2 L2 = some [0, 1, 2, 3] ∧ L2.GetSize = 3 + 1 ∧
      L2.begin m2 = some ret :=
  ⟨rfl, PushFront_eq_InsertAfter_before_begin oneList ⟨1, 3⟩ 0 [1, 2, 3] rfl⟩

/-! ## `Clear` -/

theorem Chain.nil_inv {m : Memory α} {p : Nat} {xs : List α} (h : Chain m p [] xs) :
    p = 0 ∧ xs = [] := by
  cases h with
  | nil => exact ⟨rfl, rfl⟩

theorem length_unlink (m : Memory α) (q : Nat) (n dn : Node α) :
    (unlink m q n dn).length = m.length := by
  unfold unlink
  rw [length_free, length_store]

theorem unlink_head_rep {m : Memory α} {L : SingleLinkedList} {p : Nat} {ps : List Nat}
    {x : α} {xs : List α} (h : Rep m L (p :: ps) (x :: xs)) :
    ∃ hd dn, load m L.head_ = some hd ∧ hd.next_node ≠ 0 ∧ load m hd.next_node = some dn ∧
      Rep (unlink m L.head_ hd dn) L ps xs ∧ hd.next_node = p := by
  obtain ⟨v, hc⟩ := h.chain
  obtain ⟨n, dn, h1, h2, h3, h4, h5, h6⟩ := hc.erase_after 0 (by simp)
  simp only [List.getD_cons_zero] at h1 h5 h6
  simp only [List.eraseIdx_cons_succ, List.eraseIdx_cons_zero] at h6
  exact ⟨n, dn, h1, load_some_ne_zero h3, h3, rep_of_chain h6, by simpa using h2⟩

theorem Rep.nodup_nodes {m : Memory α} {L : SingleLinkedList} {ps : List Nat} {xs : List α}
    (h : Rep m L ps xs) : (L.head_ :: ps).Nodup := by
  obtain ⟨v, hc⟩ := h.chain
  exact hc.nodup

theorem clearLoop_empty {m : Memory α} {L : SingleLinkedList} {xs : List α}
    (h : Rep m L [] xs) (k : Nat) : clearLoop m L.head_ (k + 1) = some m := by
  obtain ⟨hd, hl, hc⟩ := h
  simp [clearLoop, hl, hc.nil_inv.1]

theorem clearLoop_rep {m : Memory α} {L : SingleLinkedList} {ps : List Nat} {xs : List α}
    (h : Rep m L ps xs) {fuel : Nat} (hf : ps.length < fuel) :
    ∃ m2, clearLoop m L.head_ fuel = some m2 ∧ Rep m2 L [] [] ∧ m2.length = m.length ∧
      (∀ a ∈ ps, load m2 a = none) ∧
      ∀ q, q ≠ L.head_ → q ∉ ps → load m2 q = load m q := by
  induction ps generalizing m xs fuel with
  | nil =>
    cases fuel with
    | zero => simp at hf
    | succ k =>
      have hx : xs = [] := by
        obtain ⟨hd, hl, hc⟩ := h
        exact hc.nil_inv.2
      subst hx
      exact ⟨m, clearLoop_empty h k, h, rfl, by simp, fun _ _ _ => rfl⟩
  | cons p ps ih =>
    cases fuel with
    | zero => simp at hf
    | succ k =>
      cases xs with
      | nil => have := h.lengths; simp at this
      | cons x xs =>
        have hnd := h.nodup_nodes
        have hph : p ≠ L.head_ := fun e => (List.nodup_cons.1 hnd).1 (e ▸ List.mem_cons_self _ _)
        have hpp : p ∉ ps := (List.nodup_cons.1 (List.nodup_cons.1 hnd).2).1
        obtain ⟨hd, dn, h1, h2, h3, h4, h8⟩ := unlink_head_rep h
        obtain ⟨m2, h5, h6, h7, h9, h10⟩ := ih h4 (by simpa using hf)
        refine ⟨m2, ?_, h6, by rw [h7, length_unlink], ?_, ?_⟩
        · simp only [clearLoop, h1, h2, h3, if_false]
          exact h5
        · intro a ha
          rcases List.mem_cons.1 ha with e | hm
          · subst e
            rw [h10 a hph hpp]
            unfold unlink
            rw [h8]
            exact load_free_same _ _
          · exact h9 a hm
        · intro q hq1 hq2
          have hqp : q ≠ p := fun e => hq2 (e ▸ List.mem_cons_self _ _)
          have hqs : q ∉ ps := fun hm => hq2 (List.mem_cons_of_mem _ hm)
          rw [h10 q hq1 hqs]
          exact load_unlink_other _ _ _ hq1 (h8 ▸ hqp)

theorem Clear_rep {m : Memory α} {L : SingleLinkedList} {ps : List Nat} {xs : List α}
    (h : Rep m L ps xs) :
    ∃ m2, Clear m L = some (m2, ⟨L.head_, 0⟩) ∧ Rep m2 ⟨L.head_, 0⟩ [] [] ∧
      (ps = [] → m2 = m) ∧ (∀ a ∈ ps, load m2 a = none) ∧
      ∀ q, q ≠ L.head_ → q ∉ ps → load m2 q = load m q := by
  obtain ⟨hd, hl, hc⟩ := h
  have hle := hc.length_le
  obtain ⟨m2, h1, h2, _, h3, h4⟩ := clearLoop_rep ⟨hd, hl, hc⟩ (Nat.lt_succ_of_le hle)
  refine ⟨m2, by simp only [Clear, h1, Option.map_some'], h2, ?_, h3, h4⟩
  rintro rfl
  have := clearLoop_empty ⟨hd, hl, hc⟩ m.length
  rw [this] at h1
  exact (Option.some.inj h1).symm

/-! ## The nodes of a list -/

theorem nodesFrom_of_chain {m : Memory α} {p : Nat} {ps : List Nat} {xs : List α}
    (h : Chain m p ps xs) {fuel : Nat} (hf : ps.length < fuel) :
    nodesFrom m fuel ⟨p⟩ = some ps := by
  induction h generalizing fuel with
  | nil =>
    cases fuel with
    | zero => omega
    | succ k => simp [nodesFrom, ne_end_null]
  | @cons q nx x ps xs hl hc ih =>
    cases fuel with
    | zero => omega
    | succ k =>
      have hk : ps.length < k := by simpa using hf
      simp [nodesFrom, ne_end_node (load_some_ne_zero hl), incr_node hl, ih hk]

theorem chain_of_nodesFrom {m : Memory α} {fuel : Nat} {p : Nat} {ps : List Nat}
    (h : nodesFrom m fuel ⟨p⟩ = some ps) : ∃ xs, Chain m p ps xs := by
  induction fuel generalizing p ps with
  | zero => simp [nodesFrom] at h
  | succ k ih =>
    by_cases hp : p = 0
    · subst hp
      simp only [nodesFrom, ne_end_null, Bool.false_eq_true, if_false, Option.some.injEq] at h
      subst h
      exact ⟨[], Chain.nil⟩
    · cases hl : load m p with
      | none =>
        simp [nodesFrom, ne_end_node hp, BasicIterator.incr, hp, hl] at h
      | some n =>
        simp only [nodesFrom, ne_end_node hp, if_true, incr_node hl] at h
        cases hc : nodesFrom m k ⟨n.next_node⟩ with
        | none => rw [hc] at h; cases h
        | some qs =>
          rw [hc] at h
          cases h
          obtain ⟨xs, hxs⟩ := ih hc
          exact ⟨n.value :: xs, Chain.cons (by cases n; exact hl) hxs⟩

theorem nodes_of_rep {m : Memory α} {L : SingleLinkedList} {ps : List Nat} {xs : List α}
    (h : Rep m L ps xs) : nodes m L = some ps := by
  obtain ⟨hd, hl, hc⟩ := h
  have := hc.length_le
  simp only [nodes, begin, hl, Option.map_some']
  exact nodesFrom_of_chain hc (by omega)

theorem rep_of_nodes {m : Memory α} {L : SingleLinkedList} {ps : List Nat}
    (h : nodes m L = some ps) : ∃ xs, Rep m L ps xs := by
  unfold nodes begin at h
  cases hl : load m L.head_ with
  | none => simp [hl] at h
  | some hd =>
    simp only [hl, Option.map_some'] at h
    obtain ⟨xs, hxs⟩ := chain_of_nodesFrom h
    exact ⟨xs, hd, hl, hxs⟩

theorem rep_of_nodes_toList {m : Memory α} {L : SingleLinkedList} {ps : List Nat}
    {xs : List α} (h : nodes m L = some ps) (h2 : toList m L = some xs) : Rep m L ps xs := by
  obtain ⟨xs2, h3⟩ := rep_of_nodes h
  obtain ⟨ps2, h4⟩ := rep_of_toList h2
  obtain ⟨_, h6⟩ := h3.functional h4
  exact h6 ▸ h3

/-! ## `swap` -/

theorem swap_rep {m : Memory α} {a b : SingleLinkedList} {ps qs : List Nat} {xs ys : List α}
    (ha : Rep m a ps xs) (hb : Rep m b qs ys) (hab : a.head_ ∉ qs) (hba : b.head_ ∉ ps) :
    ∃ m2, a.swap m b = some (m2, ⟨a.head_, b.size_⟩, ⟨b.head_, a.size_⟩) ∧
      Rep m2 ⟨a.head_, b.size_⟩ qs ys ∧ Rep m2 ⟨b.head_, a.size_⟩ ps xs ∧
      ∀ p, p ≠ a.head_ → p ≠ b.head_ → load m2 p = load m p := by
  have haa := ha.head_not_mem
  have hbb := hb.head_not_mem
  obtain ⟨A, hlA, hcA⟩ := ha
  obtain ⟨B, hlB, hcB⟩ := hb
  have h1 : load (store m a.head_ { A with next_node := B.next_node }) a.head_
      = some { A with next_node := B.next_node } := load_store_same hlA _
  by_cases heq : b.head_ = a.head_
  · have hAB : A = B := by
      rw [heq, hlA] at hlB
      exact Option.some.inj hlB
    subst hAB
    obtain ⟨hps, hxs⟩ := hcA.unique hcB
    subst hps hxs
    have h2 : load (store (store m a.head_ { A with next_node := A.next_node }) b.head_
        { A with next_node := A.next_node }) a.head_ = some A := by
      rw [heq]
      exact load_store_same h1 _
    have hfr : ∀ p, p ≠ a.head_ → p ≠ b.head_ →
        load (store (store m a.head_ { A with next_node := A.next_node }) b.head_
          { A with next_node := A.next_node }) p = load m p := by
      intro p hp1 hp2
      rw [load_store_ne _ _ hp2, load_store_ne _ _ hp1]
    refine ⟨_, ?_, ⟨A, h2, ?_⟩, ⟨A, heq ▸ h2, ?_⟩, hfr⟩
    · simp only [SingleLinkedList.swap, hlA, hlB]
      rw [heq, h1]
    · exact hcA.frame fun p hp => hfr p (fun e => haa (e ▸ hp)) (fun e => hba (e ▸ hp))
    · exact hcA.frame fun p hp => hfr p (fun e => haa (e ▸ hp)) (fun e => hba (e ▸ hp))
  · have h2 : load (store m a.head_ { A with next_node := B.next_node }) b.head_ = some B := by
      rw [load_store_ne _ _ heq, hlB]
    have h3 : load (store (store m a.head_ { A with next_node := B.next_node }) b.head_
        { B with next_node := A.next_node }) b.head_ = some { B with next_node := A.next_node } :=
      load_store_same h2 _
    have h4 : load (store (store m a.head_ { A with next_node := B.next_node }) b.head_
        { B with next_node := A.next_node }) a.head_ = some { A with next_node := B.next_node } := by
      rw [load_store_ne _ _ (Ne.symm heq), h1]
    have hfr : ∀ p, p ≠ a.head_ → p ≠ b.head_ →
        load (store (store m a.head_ { A with next_node := B.next_node }) b.head_
          { B with next_node := A.next_node }) p = load m p := by
      intro p hp1 hp2
      rw [load_store_ne _ _ hp2, load_store_ne _ _ hp1]
    refine ⟨_, ?_, ⟨_, h4, ?_⟩, ⟨_, h3, ?_⟩, hfr⟩
    · simp only [SingleLinkedList.swap, hlA, hlB, h2]
    · exact hcB.frame fun p hp => hfr p (fun e => hab (e ▸ hp)) (fun e => hbb (e ▸ hp))
    · exact hcA.frame fun p hp => hfr p (fun e => haa (e ▸ hp)) (fun e => hba (e ▸ hp))

/-- C14: for lists `a` and `b` (the same object or two objects, neither sentinel a
node of the other list) with the nodes `ps`, `qs` and the elements `xs`, `ys`:
member `swap` and non-member `swap` return the same state, in which `a` has the
nodes, elements and `GetSize()` that `b` had and `b` those that `a` had; every
node other than the two sentinels is untouched, so no element is changed, added or
removed. -/
theorem swap_spec (m : Memory α) (a b : SingleLinkedList) (ps qs : List Nat) (xs ys : List α)
    (hps : nodes m a = some ps) (hxs : toList m a = some xs)
    (hqs : nodes m b = some qs) (hys : toList m b = some ys)
    (hab : a.head_ ∉ qs) (hba : b.head_ ∉ ps) :
    ∃ m2 a2 b2, a.swap m b = some (m2, a2, b2) ∧ SLL.swap m a b = some (m2, a2, b2) ∧
      a2.head_ = a.head_ ∧ b2.head_ = b.head_ ∧
      toList m2 a2 = some ys ∧ toList m2 b2 = some xs ∧
      nodes m2 a2 = some qs ∧ nodes m2 b2 = some ps ∧
      a2.GetSize = b.GetSize ∧ b2.GetSize = a.GetSize ∧
      ∀ p, p ≠ a.head_ → p ≠ b.head_ → load m2 p = load m p := by
  have ha := rep_of_nodes_toList hps hxs
  have hb := rep_of_nodes_toList hqs hys
  obtain ⟨m2, h1, h2, h3, h4⟩ := swap_rep ha hb hab hba
  exact ⟨m2, _, _, h1, h1, rfl, rfl, toList_of_rep h2, toList_of_rep h3, nodes_of_rep h2,
    nodes_of_rep h3, rfl, rfl, h4⟩

/-- The lists `{1, 2}` and `{1, 2, 3}` of `fourLists`: after `swap` the first holds
`1, 2, 3` with size 3 and the second `1, 2` with size 2. -/
theorem swap_spec_witness :
    nodes fourLists ⟨1, 2⟩ = some [3, 2] ∧ toList fourLists ⟨1, 2⟩ = some [1, 2] ∧
    nodes fourLists ⟨4, 3⟩ = some [7, 6, 5] ∧ toList fourLists ⟨4, 3⟩ = some [1, 2, 3] ∧
    ∃ m2 a2 b2, SingleLinkedList.swap fourLists ⟨1, 2⟩ ⟨4, 3⟩ = some (m2, a2, b2) ∧
      SLL.swap fourLists ⟨1, 2⟩ ⟨4, 3⟩ = some (m2, a2, b2) ∧
      a2.head_ = 1 ∧ b2.head_ = 4 ∧
      toList m2 a2 = some [1, 2, 3] ∧ toList m2 b2 = some [1, 2] ∧
      nodes m2 a2 = some [7, 6, 5] ∧ nodes m2 b2 = some [3, 2] ∧
      a2.GetSize = 3 ∧ b2.GetSize = 2 ∧
      ∀ p, p ≠ 1 → p ≠ 4 → load m2 p = load fourLists p :=
  ⟨rfl, rfl, rfl, rfl, swap_spec fourLists ⟨1, 2⟩ ⟨4, 3⟩ [3, 2] [7, 6, 5] [1, 2] [1, 2, 3]
    rfl rfl rfl rfl (by decide) (by decide)⟩

/-! ## Cursor increment -/

theorem advance_succ (m : Memory α) (it : BasicIterator) (k : Nat) :
    it.advance m (k + 1) = (it.advance m k).bind fun c => c.incr m := by
  induction k generalizing it with
  | zero =>
    simp only [BasicIterator.advance, Option.some_bind]
    cases it.incr m <;> rfl
  | succ j ih =>
    rw [BasicIterator.advance]
    cases h : it.incr m with
    | none => simp [BasicIterator.advance, h]
    | some it1 =>
      simp only [ih it1]
      simp [BasicIterator.advance, h]

theorem getD_append_zero_eq_zero_iff {m : Memory α} {p : Nat} {ps : List Nat} {xs : List α}
    (h : Chain m p ps xs) {i : Nat} (hi : i ≤ ps.length) :
    (ps ++ [0]).getD i 0 = 0 ↔ i = ps.length := by
  constructor
  · intro h0
    by_contra hne
    have hlt : i < ps.length := by omega
    have hmem := getD_mem hlt
    rw [← getD_append_zero_of_lt hlt, h0] at hmem
    exact (h.mem_bounds hmem).1 rfl
  · intro he
    exact getD_append_zero_of_le (by omega)

/-- C15: a cursor that references a node (sentinel or real) is moved by
pre-increment to that node's successor, which is `end()` when the node is the last
one; post-increment moves it the same way and returns the previous position;
incrementing `end()` leaves `end()`; incrementing `before_begin()` gives `begin()`;
and along a list with the elements `xs` the cursor `i ≤ xs.length` increments after
`before_begin()` is incremented to the next position, which dereferences to the
element of index `i` and is `end()` exactly when `i = xs.length`. -/
theorem increment_spec (m : Memory α) (L : SingleLinkedList) (it : BasicIterator) :
    (∀ n, load m it.node_ = some n →
      it.incr m = some ⟨n.next_node⟩ ∧ it.postIncr m = some (⟨n.next_node⟩, it) ∧
      (n.next_node = 0 → it.incr m = some «end»)) ∧
    («end».incr m = some «end» ∧ «end».postIncr m = some («end», «end»)) ∧
    (∀ b, L.begin m = some b → L.before_begin.incr m = some b) ∧
    (∀ xs i, toList m L = some xs → i ≤ xs.length →
      ∃ c c1, L.before_begin.advance m i = some c ∧ c.incr m = some c1 ∧
        c.postIncr m = some (c1, c) ∧
        L.before_begin.advance m (i + 1) = some c1 ∧ c1.deref m = xs[i]? ∧
        (c1 = «end» ↔ i = xs.length)) := by
  refine ⟨?_, ⟨incr_null m, ?_⟩, ?_, ?_⟩
  · intro n hn
    have h1 : it.incr m = some ⟨n.next_node⟩ := incr_node hn
    refine ⟨h1, by simp only [BasicIterator.postIncr, h1, Option.map_some'], ?_⟩
    intro h0
    rw [h1, h0]
    rfl
  · have : BasicIterator.incr m «end» = some «end» := incr_null m
    simp only [BasicIterator.postIncr, this, Option.map_some']
  · intro b hb
    unfold begin at hb
    cases hl : load m L.head_ with
    | none => simp [hl] at hb
    | some hd =>
      simp only [hl, Option.map_some', Option.some.injEq] at hb
      subst hb
      exact incr_node hl
  · intro xs i hxs hi
    obtain ⟨ps, hrep⟩ := rep_of_toList hxs
    have hlen := hrep.lengths
    obtain ⟨v, hc⟩ := hrep.chain
    have h1 := hc.advance i
    have h2 := hc.advance (i + 1)
    have h3 := advance_succ m ⟨L.head_⟩ i
    rw [h1, h2] at h3
    simp only [Option.some_bind] at h3
    have e : ((L.head_ :: ps) ++ [0]).getD (i + 1) 0 = (ps ++ [0]).getD i 0 := by simp
    rw [e] at h2 h3
    obtain ⟨hd, _, hc2⟩ := hrep
    refine ⟨_, _, h1, h3.symm, ?_, h2, hc2.deref i, ?_⟩
    · simp only [BasicIterator.postIncr, ← h3, Option.map_some']
    · rw [← hlen, ← getD_append_zero_eq_zero_iff hc2 (by omega)]
      constructor
      · intro e
        exact congrArg BasicIterator.node_ e
      · intro e
        rw [e]
        rfl

/-- The list `{1, 2, 3}`: the cursor at the sentinel increments to `begin()`, the
cursor at the last node to `end()`. -/
theorem increment_spec_witness :
    load oneList 2 = some ⟨3, 0⟩ ∧
    (BasicIterator.incr oneList ⟨2⟩ = some ⟨0⟩ ∧
      BasicIterator.postIncr oneList ⟨2⟩ = some (⟨0⟩, ⟨2⟩) ∧
      ((0 : Nat) = 0 → BasicIterator.incr oneList ⟨2⟩ = some «end»)) ∧
    begin oneList ⟨1, 3⟩ = some ⟨4⟩ ∧
    (before_begin ⟨1, 3⟩).incr oneList = some ⟨4⟩ :=
  ⟨rfl, (increment_spec oneList ⟨1, 3⟩ ⟨2⟩).1 ⟨3, 0⟩ rfl, rfl,
    (increment_spec oneList ⟨1, 3⟩ ⟨2⟩).2.2.1 ⟨4⟩ rfl⟩

/-! ## `operator==` -/

theorem deref_null (m : Memory α) : BasicIterator.deref m ⟨0⟩ = none := rfl

theorem std_equal_of_chain [DecidableEq α] {m : Memory α} {p : Nat} {ps : List Nat}
    {xs : List α} (h : Chain m p ps xs) {q : Nat} {qs : List Nat} {ys : List α}
    (h2 : Chain m q qs ys) {fuel : Nat} (hf : ps.length < fuel) :
    std_equal m fuel ⟨p⟩ «end» ⟨q⟩ = equalResult xs ys := by
  induction h generalizing q qs ys fuel with
  | nil =>
    cases fuel with
    | zero => omega
    | succ k => simp [std_equal, ne_end_null, equalResult]
  | @cons p nx x ps xs hl hc ih =>
    cases fuel with
    | zero => omega
    | succ k =>
      have hp := load_some_ne_zero hl
      cases h2 with
      | nil => simp [std_equal, ne_end_node hp, deref_node hl, deref_null, equalResult]
      | @cons _ nx2 y qs ys hl2 hc2 =>
        have hk : ps.length < k := by simpa using hf
        simp only [std_equal, ne_end_node hp, deref_node hl, deref_node hl2, incr_node hl,
          incr_node hl2, ih hc2 hk, equalResult, if_true]

theorem operator_eq_rep [DecidableEq α] {m : Memory α} {a b : SingleLinkedList}
    {ps qs : List Nat} {xs ys : List α} (ha : Rep m a ps xs) (hb : Rep m b qs ys) :
    operator_eq m a b = if a.head_ = b.head_ then some true else equalResult xs ys := by
  obtain ⟨hd, hl, hc⟩ := ha
  obtain ⟨hd2, hl2, hc2⟩ := hb
  have := hc.length_le
  by_cases he : a.head_ = b.head_
  · simp [operator_eq, he]
  · simp only [operator_eq, he, if_false, begin, hl, hl2, Option.map_some']
    exact std_equal_of_chain hc hc2 (by omega)

theorem equalResult_append [DecidableEq α] (xs t : List α) :
    equalResult xs (xs ++ t) = some true := by
  induction xs with
  | nil => simp [equalResult]
  | cons x xs ih => simp [equalResult, ih]

theorem equalResult_longer [DecidableEq α] (xs t : List α) (ht : t ≠ []) :
    equalResult (xs ++ t) xs = none := by
  induction xs with
  | nil =>
    cases t with
    | nil => exact absurd rfl ht
    | cons y t => simp [equalResult]
  | cons x xs ih => simp [equalResult, ih]

/-! ## Inserting and erasing at the same position -/

theorem eraseIdx_take_cons_drop {β : Type} (l : List β) (i : Nat) (v : β) (h : i ≤ l.length) :
    (l.take i ++ v :: l.drop i).eraseIdx i = l := by
  induction l generalizing i with
  | nil =>
    have : i = 0 := by simpa using h
    subst this
    simp
  | cons a l ih =>
    cases i with
    | zero => simp
    | succ j => simpa using ih j (by simpa using h)

theorem getD_cons_take_cons_drop (h0 a : Nat) (l : List Nat) (i : Nat) (h : i ≤ l.length) :
    (h0 :: (l.take i ++ a :: l.drop i)).getD i 0 = (h0 :: l).getD i 0 := by
  induction l generalizing i h0 with
  | nil =>
    have : i = 0 := by simpa using h
    subst this
    simp
  | cons b l ih =>
    cases i with
    | zero => simp
    | succ j => simpa using ih b j (by simpa using h)

/-! ## The claims, continued -/

/-- C13, evaluated on the list `{1}` built by the initializer-list constructor:
after `EraseAfter(before_begin())` the list has no element and `begin() == end()`,
while `GetSize()` is `1` and `IsEmpty()` is false. -/
theorem IsEmpty_false_on_empty_list_after_EraseAfter :
    ∃ m L m2 L2 ret, ofInitializerList ([] : Memory Nat) [1] = some (m, L) ∧
      EraseAfter m L L.before_begin = some (m2, L2, ret) ∧
      toList m2 L2 = some [] ∧ (L2.begin m2).map (fun b => b.eq «end») = some true ∧
      L2.GetSize = 1 ∧ L2.IsEmpty = false :=
  ⟨_, _, _, _, _, rfl, rfl, rfl, rfl, rfl, rfl⟩

/-- C16, evaluated on `{1, 2, 3} == {1, 2}`: after two equal pairs the cursor of the
left list still references a node while the cursor of the right list is `end()`,
whose dereference is undefined; the loop reads it, and `operator==` has no defined
result, whatever the fuel. -/
theorem operator_eq_dereferences_end :
    ∃ m1 A m B b1 b2, ofInitializerList ([] : Memory Nat) [1, 2, 3] = some (m1, A) ∧
      ofInitializerList m1 [1, 2] = some (m, B) ∧
      toList m A = some [1, 2, 3] ∧ toList m B = some [1, 2] ∧
      A.begin m = some b1 ∧ B.begin m = some b2 ∧
      (b1.advance m 2).map (fun c => c.ne «end») = some true ∧
      b2.advance m 2 = some «end» ∧ BasicIterator.deref m «end» = none ∧
      (∀ fuel, std_equal m fuel b1 «end» b2 = none) ∧
      operator_eq m A B = none :=
  ⟨_, _, _, _, _, _, rfl, rfl, rfl, rfl, rfl, rfl, rfl, rfl, rfl,
    fun fuel => match fuel with
      | 0 => rfl
      | 1 => rfl
      | 2 => rfl
      | _ + 3 => rfl,
    rfl⟩

/-- C18: for two list objects `a`, `b` whose elements `xs` are a proper prefix of the
elements `ys`, `a == b` returns `true` while `b == a` has no defined result (it
dereferences the exhausted cursor of `a`): the two calls do not evaluate to the
same boolean. -/
theorem operator_eq_not_symmetric [DecidableEq α] (m : Memory α) (a b : SingleLinkedList)
    (xs ys : List α) (ha : toList m a = some xs) (hb : toList m b = some ys)
    (hne : a.head_ ≠ b.head_) (hpre : xs <+: ys) (hxy : xs ≠ ys) :
    operator_eq m a b = some true ∧ operator_eq m b a = none := by
  obtain ⟨ps, hra⟩ := rep_of_toList ha
  obtain ⟨qs, hrb⟩ := rep_of_toList hb
  obtain ⟨t, rfl⟩ := hpre
  have ht : t ≠ [] := by
    rintro rfl
    exact hxy (by simp)
  rw [operator_eq_rep hra hrb, operator_eq_rep hrb hra, if_neg hne, if_neg (Ne.symm hne)]
  exact ⟨equalResult_append xs t, equalResult_longer xs t ht⟩

/-- The lists `{1, 2}` and `{1, 2, 3}` of `fourLists`. -/
theorem operator_eq_not_symmetric_witness :
    toList fourLists ⟨1, 2⟩ = some [1, 2] ∧ toList fourLists ⟨4, 3⟩ = some [1, 2, 3] ∧
    operator_eq fourLists ⟨1, 2⟩ ⟨4, 3⟩ = some true ∧
    operator_eq fourLists ⟨4, 3⟩ ⟨1, 2⟩ = none :=
  ⟨rfl, rfl, operator_eq_not_symmetric fourLists ⟨1, 2⟩ ⟨4, 3⟩ [1, 2] [1, 2, 3] rfl rfl
    (by decide) (by decide) (by decide)⟩

/-- C19, evaluated on `a = {1, 2, 3}` and `b = {1, 2}`: `b < a` is `true` and
`b >= a` is `false`, while `a > b` and `a <= b` have no defined result, because
both evaluate `a == b`, which dereferences the exhausted cursor of `b`. -/
theorem operator_gt_le_undefined_on_longer_left :
    ∃ m1 A m B, ofInitializerList ([] : Memory Nat) [1, 2, 3] = some (m1, A) ∧
      ofInitializerList m1 [1, 2] = some (m, B) ∧
      toList m A = some [1, 2, 3] ∧ toList m B = some [1, 2] ∧
      operator_lt m B A = some true ∧ operator_gt m A B = none ∧
      operator_ge m B A = some false ∧ operator_le m A B = none :=
  ⟨_, _, _, _, rfl, rfl, rfl, rfl, rfl, rfl, rfl, rfl⟩

/-- C20: for a list `L` with the elements `xs` and a value `v`, `PushFront(v)` then
`PopFront()` return and give back the elements `xs` and the list object `L`
itself, `GetSize()` included; `InsertAfter(p, v)` then `EraseAfter(p)` at a
position `p` (`i ≤ xs.length` increments after `before_begin()`) return and give
back the elements `xs` too, but leave `GetSize()` one above its old value. -/
theorem roundtrip_spec (m : Memory α) (L : SingleLinkedList) (xs : List α) (i : Nat)
    (pos : BasicIterator) (v : α) (hxs : toList m L = some xs)
    (hpos : L.before_begin.advance m i = some pos) (hi : i ≤ xs.length) :
    (∃ m1 L1 m2 L2, PushFront m L v = some (m1, L1) ∧ PopFront m1 L1 = some (m2, L2) ∧
      toList m2 L2 = some xs ∧ L2 = L) ∧
    (∃ m1 L1 r1 m2 L2 r2, InsertAfter m L pos v = some (m1, L1, r1) ∧
      EraseAfter m1 L1 pos = some (m2, L2, r2) ∧
      toList m2 L2 = some xs ∧ L2.head_ = L.head_ ∧ L2.GetSize = L.GetSize + 1) := by
  obtain ⟨ps, hrep⟩ := rep_of_toList hxs
  have hlen := hrep.lengths
  constructor
  · obtain ⟨m1, h1, h2, _⟩ := PushFront_rep hrep v
    obtain ⟨m2, h3, h4⟩ := PopFront_rep h2
    exact ⟨m1, _, m2, _, h1, h3, toList_of_rep h4, rfl⟩
  · have hp := position_of_advance hrep hpos (by omega)
    subst hp
    obtain ⟨n, h1, h2, h3, h4⟩ := InsertAfter_rep hrep i (by omega) v
    have hlt : i < (ps.take i ++ (m.length + 1) :: ps.drop i).length := by
      simp only [List.length_append, List.length_take, List.length_cons, List.length_drop]
      omega
    obtain ⟨m2, h5, h6⟩ := EraseAfter_rep h4 i hlt
    rw [getD_cons_take_cons_drop _ _ _ _ (by omega)] at h5
    rw [eraseIdx_take_cons_drop ps _ _ (by omega),
      eraseIdx_take_cons_drop xs _ _ (by omega)] at h6
    exact ⟨_, _, _, m2, _, _, h3, h5, toList_of_rep h6, rfl, rfl⟩

/-- The list `{1, 2}` (size 2) and the value `0`: `InsertAfter(before_begin(), 0)`
then `EraseAfter(before_begin())` give back `1, 2` with `GetSize()` equal to 3. -/
theorem roundtrip_spec_witness :
    toList ([some ⟨0, 3⟩, some ⟨2, 0⟩, some ⟨1, 2⟩] : Memory Nat) ⟨1, 2⟩ = some [1, 2] ∧
    (∃ m1 L1 m2 L2,
      PushFront ([some ⟨0, 3⟩, some ⟨2, 0⟩, some ⟨1, 2⟩] : Memory Nat) ⟨1, 2⟩ 0
        = some (m1, L1) ∧
      PopFront m1 L1 = some (m2, L2) ∧ toList m2 L2 = some [1, 2] ∧ L2 = ⟨1, 2⟩) ∧
    (∃ m1 L1 r1 m2 L2 r2,
      InsertAfter ([some ⟨0, 3⟩, some ⟨2, 0⟩, some ⟨1, 2⟩] : Memory Nat) ⟨1, 2⟩
        (before_begin ⟨1, 2⟩) 0 = some (m1, L1, r1) ∧
      EraseAfter m1 L1 (before_begin ⟨1, 2⟩) = some (m2, L2, r2) ∧
      toList m2 L2 = some [1, 2] ∧ L2.head_ = 1 ∧ L2.GetSize = 2 + 1) :=
  ⟨rfl, roundtrip_spec ([some ⟨0, 3⟩, some ⟨2, 0⟩, some ⟨1, 2⟩] : Memory Nat) ⟨1, 2⟩ [1, 2] 0
    (before_begin ⟨1, 2⟩) 0 rfl rfl (by decide)⟩

/-! ## `PopFront` and `Clear`, with the nodes they destroy -/

theorem PopFront_unlink {m : Memory α} {L : SingleLinkedList} {p : Nat} {ps : List Nat}
    {x : α} {xs : List α} (h : Rep m L (p :: ps) (x :: xs)) :
    ∃ m2, PopFront m L = some (m2, ⟨L.head_, L.size_ - 1⟩) ∧
      Rep m2 ⟨L.head_, L.size_ - 1⟩ ps xs ∧ load m2 p = none ∧
      ∀ q, q ≠ L.head_ → q ≠ p → load m2 q = load m q := by
  obtain ⟨hd, dn, h1, h2, h3, h4, h5⟩ := unlink_head_rep h
  obtain ⟨hd2, hl2, hc2⟩ := h4
  refine ⟨unlink m L.head_ hd dn, ?_, ⟨hd2, hl2, hc2⟩, ?_, ?_⟩
  · simp only [PopFront, h1, h3]
    rfl
  · unfold unlink
    rw [h5]
    exact load_free_same _ _
  · intro q hq1 hq2
    exact load_unlink_other _ _ _ hq1 (h5 ▸ hq2)

/-- C10: for every non-empty list `L` (its iteration yields `x :: xs` over the nodes
`p :: ps`, and `IsEmpty()` is false), `PopFront()` returns; the same list object
then holds the elements `xs` in the nodes `ps` (the first element removed, the
others kept in order), its first node `p` is destroyed, no cell other than the
sentinel and `p` is touched, and `GetSize()` has dropped by exactly one. -/
theorem PopFront_spec (m : Memory α) (L : SingleLinkedList) (x : α) (xs : List α)
    (hxs : toList m L = some (x :: xs)) (hne : L.IsEmpty = false) :
    ∃ m2 L2, PopFront m L = some (m2, L2) ∧ L2.head_ = L.head_ ∧
      toList m2 L2 = some xs ∧ L2.GetSize + 1 = L.GetSize ∧
      ∃ p ps, nodes m L = some (p :: ps) ∧ nodes m2 L2 = some ps ∧ load m2 p = none ∧
        ∀ q, q ≠ L.head_ → q ≠ p → load m2 q = load m q := by
  obtain ⟨ps, hrep⟩ := rep_of_toList hxs
  have hlen := hrep.lengths
  cases ps with
  | nil => simp at hlen
  | cons p ps =>
    obtain ⟨m2, h1, h2, h3, h4⟩ := PopFront_unlink hrep
    refine ⟨m2, _, h1, rfl, toList_of_rep h2, ?_, p, ps, nodes_of_rep hrep, nodes_of_rep h2,
      h3, h4⟩
    have : L.size_ ≠ 0 := by simpa [SingleLinkedList.IsEmpty] using hne
    simp only [GetSize]
    omega

/-- The scenario of C10: `PopFront()` on `{1, 2, 3}` (sentinel 1, nodes 4, 3, 2)
leaves `2, 3` in the nodes 3, 2 behind the same sentinel, and size 2. -/
theorem PopFront_spec_witness :
    toList oneList ⟨1, 3⟩ = some [1, 2, 3] ∧ SingleLinkedList.IsEmpty ⟨1, 3⟩ = false ∧
    ∃ m2 L2, PopFront oneList ⟨1, 3⟩ = some (m2, L2) ∧ L2.head_ = 1 ∧
      toList m2 L2 = some [2, 3] ∧ L2.GetSize + 1 = 3 ∧
      ∃ p ps, nodes oneList ⟨1, 3⟩ = some (p :: ps) ∧ nodes m2 L2 = some ps ∧
        load m2 p = none ∧ ∀ q, q ≠ 1 → q ≠ p → load m2 q = load oneList q :=
  ⟨rfl, rfl, PopFront_spec oneList ⟨1, 3⟩ 1 [2, 3] rfl rfl⟩

/-- C12: for every list `L`, `Clear()` returns (the loop terminates); the same list
object is then without elements, `begin() == end()` and `GetSize() == 0`; every
node the list had is destroyed and no cell other than the sentinel and those nodes
is touched; on a list that was already empty the memory is left untouched, and
clearing the cleared list again gives the very same state. -/
theorem Clear_spec (m : Memory α) (L : SingleLinkedList) (xs : List α)
    (hxs : toList m L = some xs) :
    ∃ m2 L2, Clear m L = some (m2, L2) ∧ L2.head_ = L.head_ ∧
      toList m2 L2 = some [] ∧ L2.begin m2 = some «end» ∧ L2.GetSize = 0 ∧
      (xs = [] → m2 = m) ∧ Clear m2 L2 = some (m2, L2) ∧
      ∃ ps, nodes m L = some ps ∧ nodes m2 L2 = some [] ∧ (∀ p ∈ ps, load m2 p = none) ∧
        ∀ q, q ≠ L.head_ → q ∉ ps → load m2 q = load m q := by
  obtain ⟨ps, hrep⟩ := rep_of_toList hxs
  have hlen := hrep.lengths
  obtain ⟨m2, h1, h2, h3, h6, h7⟩ := Clear_rep hrep
  obtain ⟨m3, h4, _, h5, _, _⟩ := Clear_rep h2
  refine ⟨m2, _, h1, rfl, toList_of_rep h2, ?_, rfl, ?_, ?_, ps, nodes_of_rep hrep,
    nodes_of_rep h2, h6, h7⟩
  · obtain ⟨hd, hl, hc⟩ := h2
    simp only [begin, hl, Option.map_some', hc.nil_inv.1]
    rfl
  · rintro rfl
    exact h3 (List.length_eq_zero.1 hlen)
  · rw [h4, h5 rfl]

/-- The list `{1, 2, 3}` (sentinel 1): `Clear()` empties it behind the same
sentinel and destroys its nodes, and a second `Clear()` changes nothing. -/
theorem Clear_spec_witness :
    toList oneList ⟨1, 3⟩ = some [1, 2, 3] ∧
    ∃ m2 L2, Clear oneList ⟨1, 3⟩ = some (m2, L2) ∧ L2.head_ = 1 ∧
      toList m2 L2 = some [] ∧ L2.begin m2 = some «end» ∧ L2.GetSize = 0 ∧
      (([1, 2, 3] : List Nat) = [] → m2 = oneList) ∧ Clear m2 L2 = some (m2, L2) ∧
      ∃ ps, nodes oneList ⟨1, 3⟩ = some ps ∧ nodes m2 L2 = some [] ∧
        (∀ p ∈ ps, load m2 p = none) ∧
        ∀ q, q ≠ 1 → q ∉ ps → load m2 q = load oneList q :=
  ⟨rfl, Clear_spec oneList ⟨1, 3⟩ [1, 2, 3] rfl⟩

/-! ## `operator<` on an element type that is not totally ordered -/

/-- C5 as stated for every element type fails on `Keyed`: for `a = {(1,0)}` and
`b = {(1,1), (5,5)}` the call `a < b` returns `true` (the first elements are not
ordered either way, then `a` is exhausted), although `a` is not a prefix of `b` and,
at index 0, the first index where they differ, the element of `a` is not less than
the element of `b`. -/
theorem operator_lt_true_without_prefix_or_less :
    ∃ m1 A m B, ofInitializerList ([] : Memory Keyed) [⟨1, 0⟩] = some (m1, A) ∧
      ofInitializerList m1 [⟨1, 1⟩, ⟨5, 5⟩] = some (m, B) ∧
      toList m A = some [⟨1, 0⟩] ∧ toList m B = some [⟨1, 1⟩, ⟨5, 5⟩] ∧
      operator_lt m A B = some true ∧
      ¬ ((([⟨1, 0⟩] : List Keyed) <+: [⟨1, 1⟩, ⟨5, 5⟩] ∧
            ([⟨1, 0⟩] : List Keyed) ≠ [⟨1, 1⟩, ⟨5, 5⟩]) ∨
          ∃ i x y, ([⟨1, 0⟩] : List Keyed).take i = ([⟨1, 1⟩, ⟨5, 5⟩] : List Keyed).take i ∧
            ([⟨1, 0⟩] : List Keyed)[i]? = some x ∧
            ([⟨1, 1⟩, ⟨5, 5⟩] : List Keyed)[i]? = some y ∧ x < y) := by
  refine ⟨_, _, _, _, rfl, rfl, rfl, rfl, rfl, ?_⟩
  rintro (⟨h1, _⟩ | ⟨i, x, y, _, h2, h3, h4⟩)
  · exact absurd h1 (by decide)
  · cases i with
    | zero =>
      simp only [List.getElem?_cons_zero, Option.some.injEq] at h2 h3
      subst h2 h3
      exact absurd h4 (by decide)
    | succ j => simp at h2

end SLL
